import Mathlib

/-!
Shallow embedding of the card metadata cache and search engine of
`arkhamdb_api.py` (class `ArkhamDBAPI`), together with proofs of the
behavioural properties stated for it.

Modelling conventions:
* Python `dict`s produced by comprehensions are modelled as insertion-ordered
  association lists built by an overwrite-in-place insert (`dictInsert`),
  which reproduces Python's last-write-wins and key-order semantics.
* Python string truthiness (`if s:`) is modelled as inequality with `""`,
  and `card.get(k)` as an `Option` field.
* `str.startswith` and the `in` substring test are modelled on character
  lists (`listStarts`, `listSub`).
* Network responses are modelled by a `Responses` record giving the parsed
  body of each endpoint the loader can hit (`none` = transport error,
  non-200 status, or malformed body).
* The concurrent behaviour of `_ensure_cards_loaded` is modelled twice:
  once as a sequential state transformer (used by the loader/search claims),
  and once as a small-step interleaving transition system over any number of
  caller threads (used by the single-loader claim).
-/

namespace ArkhamDB

/-- A card record as returned by the remote service: only the fields the
engine reads.  `none` models an absent JSON key. -/
structure Card where
  name : Option String
  code : Option String
  subname : Option String
  traits : Option String
  text : Option String
  faction_code : Option String
  type_code : Option String
  encounter_code : Option String
  encounter_position : Option Int
deriving DecidableEq, Repr

/-- A pre-normalized search index entry (`_build_search_index`). -/
structure IndexEntry where
  card : Card
  name : String
  code : String
  subname : String
  traits : String
  text : String
  is_encounter : Bool
deriving DecidableEq, Repr

/-- `needle.isPrefix of hay`, on raw lists: models Python `s.startswith(q)`
applied to the character lists. -/
def listStarts {α : Type} [DecidableEq α] : List α → List α → Bool
  | [], _ => true
  | _ :: _, [] => false
  | a :: as, b :: bs => decide (a = b) && listStarts as bs

/-- `needle` occurs as a contiguous sublist of `hay`: models Python
`q in s` on the character lists (an empty needle always matches). -/
def listSub {α : Type} [DecidableEq α] (needle : List α) : List α → Bool
  | [] => needle.isEmpty
  | b :: bs => listStarts needle (b :: bs) || listSub needle bs

/-- Python `s.startswith(q)`. -/
def pyStartsWith (s q : String) : Bool := listStarts q.toList s.toList

/-- Python `q in s` (substring containment). -/
def pyIn (q s : String) : Bool := listSub q.toList s.toList

/-- ASCII lowercasing of one character (Python `str.lower` restricted to the
ASCII range, which is all the engine's data uses). -/
def pyCharLower (c : Char) : Char :=
  if 'A' ≤ c ∧ c ≤ 'Z' then Char.ofNat (c.toNat + 32) else c

/-- Python `s.lower()`. -/
def pyLower (s : String) : String := ⟨s.data.map pyCharLower⟩

/-- Python `str.strip`'s whitespace class (ASCII part). -/
def pyIsSpace (c : Char) : Bool :=
  c = ' ' || c = '\t' || c = '\n' || c = '\r' || c = '\x0b' || c = '\x0c'

/-- Python `s.strip()`. -/
def pyStrip (s : String) : String :=
  ⟨((s.data.dropWhile pyIsSpace).reverse.dropWhile pyIsSpace).reverse⟩

/-- Faction codes treated as encounter factions (`_is_encounter_card`). -/
def encounter_factions : List String := ["mythos", "neutral"]

/-- Type codes treated as encounter types (`_is_encounter_card`). -/
def encounter_types : List String := ["enemy", "treachery", "location", "agenda", "act", "scenario"]

/-- `ArkhamDBAPI._is_encounter_card`. -/
def is_encounter_card (card : Card) : Bool :=
  (encounter_factions.contains (card.faction_code.getD "") &&
    encounter_types.contains (card.type_code.getD "")) ||
  card.encounter_code.isSome || card.encounter_position.isSome

/-- One entry of `_build_search_index`: lowercases the searchable fields
(Python `(card.get(k) or '').lower()`) and classifies the card. -/
def build_entry (card : Card) : IndexEntry :=
  { card := card
    name := pyLower (card.name.getD "")
    code := pyLower (card.code.getD "")
    subname := pyLower (card.subname.getD "")
    traits := pyLower (card.traits.getD "")
    text := pyLower (card.text.getD "")
    is_encounter := is_encounter_card card }

/-- `ArkhamDBAPI._build_search_index`. -/
def build_search_index (cards : List Card) : List IndexEntry :=
  cards.map build_entry

/-- Insert into a Python dict modelled as an insertion-ordered association
list: an existing key is overwritten in place, a new key is appended. -/
def dictInsert {α : Type} (m : List (String × α)) (k : String) (v : α) : List (String × α) :=
  if m.any (fun p => p.1 = k) then
    m.map (fun p => if p.1 = k then (k, v) else p)
  else m ++ [(k, v)]

/-- Build a Python dict from a key-value sequence (as a dict comprehension
does: later occurrences of a key overwrite earlier ones). -/
def pyDict {α : Type} (kvs : List (String × α)) : List (String × α) :=
  kvs.foldl (fun m kv => dictInsert m kv.1 kv.2) []

/-- Python `d[k]` lookup (as an `Option`). -/
def pyGet {α : Type} (m : List (String × α)) (k : String) : Option α :=
  (m.find? (fun p => decide (p.1 = k))).map (fun p => p.2)

/-- The code of a card when present and non-empty: the keys admitted by the
`if card.get('code')` truthiness guards of `_set_shared_data`. -/
def truthyCode (c : Card) : Option String :=
  match c.code with
  | none => none
  | some s => if s = "" then none else some s

/-- The `code → card` dict of `_set_shared_data`. -/
def cards_by_code (cards : List Card) : List (String × Card) :=
  pyDict (cards.filterMap (fun c => (truthyCode c).map (fun s => (s, c))))

/-- The `code → index entry` dict of `_set_shared_data`. -/
def index_by_code_of (index : List IndexEntry) : List (String × IndexEntry) :=
  pyDict (index.filterMap (fun e => (truthyCode e.card).map (fun s => (s, e))))

/-- The process-wide shared cache of `ArkhamDBAPI` (the class attributes
`_shared_all_cards_cache`, `_shared_cards_cache`, `_shared_search_index`,
`_shared_index_by_code`, `_shared_loading`). -/
structure CacheState where
  all_cards : Option (List Card)
  cards_cache : List (String × Card)
  search_index : List IndexEntry
  index_by_code : List (String × IndexEntry)
  loading : Bool
deriving DecidableEq, Repr

/-- The shared cache at process start. -/
def initial_cache : CacheState :=
  { all_cards := none, cards_cache := [], search_index := [],
    index_by_code := [], loading := false }

/-- `ArkhamDBAPI._set_shared_data`: publish all four views built from one
freshly loaded card list (the loading flag is not touched here). -/
def set_shared_data (st : CacheState) (cards : List Card) : CacheState :=
  let si := build_search_index cards
  { st with
    all_cards := some cards
    cards_cache := cards_by_code cards
    search_index := si
    index_by_code := index_by_code_of si }

/-- Parsed bodies of the three catalog requests `_load_all_cards` can make:
the one-shot fast path, then the "player cards" and "encounter cards"
fallback tiers.  `none` models a failed request or unparseable body. -/
structure Responses where
  fast : Option (List Card)
  tier1 : Option (List Card)
  tier2 : Option (List Card)
deriving DecidableEq, Repr

/-- One fallback-tier merge step of `_load_all_cards`: the first non-error
response is taken wholesale; later responses only contribute cards whose
`code` is not already present. -/
def tierAccum (cards : List Card) (resp : Option (List Card)) : List Card :=
  match resp with
  | none => cards
  | some ec =>
    if cards = [] then ec
    else cards ++ ec.filter (fun c => !((cards.map Card.code).contains c.code))

/-- The card list accumulated by the fallback loop of `_load_all_cards`. -/
def fallback_cards (r : Responses) : List Card :=
  tierAccum (tierAccum [] r.tier1) r.tier2

/-- `ArkhamDBAPI._load_all_cards`: fast path first (accepted only when it
parses to a non-empty list), then the fallback tiers; publishes via
`set_shared_data` on success. -/
def load_all_cards (st : CacheState) (r : Responses) : Bool × CacheState :=
  match r.fast with
  | some cs =>
    if 0 < cs.length then (true, set_shared_data st cs)
    else
      let cards := fallback_cards r
      if cards = [] then (false, st) else (true, set_shared_data st cards)
  | none =>
    let cards := fallback_cards r
    if cards = [] then (false, st) else (true, set_shared_data st cards)

/-- `ArkhamDBAPI._ensure_cards_loaded`, sequential view (a single caller
running to completion): populated fast path, contention check, else run the
loader with the loading flag set and clear it afterwards. -/
def ensure_cards_loaded (st : CacheState) (r : Responses) : Bool × CacheState :=
  if st.all_cards.isSome then (true, st)
  else if st.loading then (false, st)
  else
    let res := load_all_cards { st with loading := true } r
    (res.1, { res.2 with loading := false })

/-- The six relevance tiers of `search_cards`. -/
inductive Tier where
  | exact
  | pfx
  | sub
  | icontains
  | itraits
  | itext
deriving DecidableEq, Repr

/-- Position of a tier in the result concatenation order. -/
def tierIdx : Tier → Nat
  | .exact => 0
  | .pfx => 1
  | .sub => 2
  | .icontains => 3
  | .itraits => 4
  | .itext => 5

/-- The raw match condition of a single tier, independent of the else-if
chain (used to state "first tier it matches"). -/
def tierMatch (q : String) (include_text : Bool) (e : IndexEntry) : Tier → Prop
  | .exact => q = e.name ∨ q = e.code
  | .pfx => pyStartsWith e.name q = true ∨ pyStartsWith e.code q = true
  | .sub => e.subname ≠ "" ∧ (e.subname = q ∨ pyStartsWith e.subname q = true)
  | .icontains => pyIn q e.name = true ∨ pyIn q e.code = true ∨
      (e.subname ≠ "" ∧ pyIn q e.subname = true)
  | .itraits => e.traits ≠ "" ∧ pyIn q e.traits = true
  | .itext => include_text = true ∧ e.text ≠ "" ∧ pyIn q e.text = true

instance (q : String) (it : Bool) (e : IndexEntry) (t : Tier) :
    Decidable (tierMatch q it e t) := by
  cases t <;> simp only [tierMatch] <;> infer_instance

/-- The else-if classification chain of the `search_cards` scan loop, with
the running-total budget check of the text tier (`total < limit`). -/
def tier_of_run (q : String) (include_text : Bool) (limit total : Nat) (e : IndexEntry) : Option Tier :=
  if q = e.name ∨ q = e.code then some .exact
  else if pyStartsWith e.name q = true ∨ pyStartsWith e.code q = true then some .pfx
  else if e.subname ≠ "" ∧ (e.subname = q ∨ pyStartsWith e.subname q = true) then some .sub
  else if pyIn q e.name = true ∨ pyIn q e.code = true ∨
      (e.subname ≠ "" ∧ pyIn q e.subname = true) then some .icontains
  else if e.traits ≠ "" ∧ pyIn q e.traits = true then some .itraits
  else if include_text = true ∧ total < limit ∧ e.text ≠ "" ∧ pyIn q e.text = true then some .itext
  else none

/-- The classification chain with the budget condition dropped (the pure
per-entry tier).  During a scan started below its limit the budget condition
always holds, so this agrees with `tier_of_run` there. -/
def tier_of (q : String) (include_text : Bool) (e : IndexEntry) : Option Tier :=
  if q = e.name ∨ q = e.code then some .exact
  else if pyStartsWith e.name q = true ∨ pyStartsWith e.code q = true then some .pfx
  else if e.subname ≠ "" ∧ (e.subname = q ∨ pyStartsWith e.subname q = true) then some .sub
  else if pyIn q e.name = true ∨ pyIn q e.code = true ∨
      (e.subname ≠ "" ∧ pyIn q e.subname = true) then some .icontains
  else if e.traits ≠ "" ∧ pyIn q e.traits = true then some .itraits
  else if include_text = true ∧ e.text ≠ "" ∧ pyIn q e.text = true then some .itext
  else none

/-- The six match buckets accumulated by the `search_cards` scan. -/
structure Buckets where
  exact_matches : List Card
  prefix_matches : List Card
  subname_matches : List Card
  contains_matches : List Card
  traits_matches : List Card
  text_matches : List Card
deriving DecidableEq, Repr

def Buckets.empty : Buckets := ⟨[], [], [], [], [], []⟩

/-- Append one card to the bucket of the given tier. -/
def Buckets.add (b : Buckets) (t : Tier) (c : Card) : Buckets :=
  match t with
  | .exact => { b with exact_matches := b.exact_matches ++ [c] }
  | .pfx => { b with prefix_matches := b.prefix_matches ++ [c] }
  | .sub => { b with subname_matches := b.subname_matches ++ [c] }
  | .icontains => { b with contains_matches := b.contains_matches ++ [c] }
  | .itraits => { b with traits_matches := b.traits_matches ++ [c] }
  | .itext => { b with text_matches := b.text_matches ++ [c] }

/-- The final concatenation order of `search_cards`. -/
def Buckets.combined (b : Buckets) : List Card :=
  b.exact_matches ++ b.prefix_matches ++ b.subname_matches ++
    b.contains_matches ++ b.traits_matches ++ b.text_matches

/-- Componentwise bucket concatenation. -/
def Buckets.app (b c : Buckets) : Buckets :=
  ⟨b.exact_matches ++ c.exact_matches, b.prefix_matches ++ c.prefix_matches,
    b.subname_matches ++ c.subname_matches, b.contains_matches ++ c.contains_matches,
    b.traits_matches ++ c.traits_matches, b.text_matches ++ c.text_matches⟩

/-- Select one bucket by tier. -/
def Buckets.bucket (b : Buckets) : Tier → List Card
  | .exact => b.exact_matches
  | .pfx => b.prefix_matches
  | .sub => b.subname_matches
  | .icontains => b.contains_matches
  | .itraits => b.traits_matches
  | .itext => b.text_matches

/-- The scan loop of `search_cards`: skip encounter entries when excluded,
classify via the else-if chain, bump the running total, and stop as soon as
the total reaches the limit. -/
def scan (q : String) (include_text include_encounter : Bool) (limit : Nat) :
    List IndexEntry → Buckets → Nat → Buckets
  | [], b, _ => b
  | e :: rest, b, total =>
    if include_encounter = false ∧ e.is_encounter = true then
      scan q include_text include_encounter limit rest b total
    else
      match tier_of_run q include_text limit total e with
      | none => scan q include_text include_encounter limit rest b total
      | some t =>
        let b' := b.add t e.card
        if limit ≤ total + 1 then b'
        else scan q include_text include_encounter limit rest b' (total + 1)

/-- The effective limit: Python `if not limit or limit <= 0: limit = len(index)`. -/
def effLimit (index : List IndexEntry) (limit : Option Int) : Nat :=
  match limit with
  | none => index.length
  | some l => if l ≤ 0 then index.length else l.toNat

/-- The pure search over an already-published index (the body of
`search_cards` after the load check): normalize the query, default the
limit, scan, concatenate, truncate. -/
def search_cards_loaded (index : List IndexEntry) (q : String) (limit : Option Int)
    (include_encounter : Bool) : List Card :=
  if index = [] then []
  else
    let query := pyLower (pyStrip q)
    if query = "" then []
    else
      let lim := effLimit index limit
      let include_text := decide (3 ≤ query.length)
      let combined := (scan query include_text include_encounter lim index Buckets.empty 0).combined
      if lim ≠ 0 ∧ lim < combined.length then combined.take lim else combined

/-- `ArkhamDBAPI.search_cards` including its call to
`_ensure_cards_loaded`: the load is attempted (and can run to completion)
before any searching happens. -/
def search_cards (st : CacheState) (r : Responses) (q : String) (limit : Option Int)
    (include_encounter : Bool) : List Card × CacheState :=
  let res := ensure_cards_loaded st r
  if res.1 = false then ([], res.2)
  else (search_cards_loaded res.2.search_index q limit include_encounter, res.2)

/-- Rate limiter state: the `_last_request_time` attribute.  Each engine
instance is constructed with its own copy, initialised to `0`. -/
structure RateState where
  last_request_time : ℚ
deriving DecidableEq, Repr

/-- `_last_request_time = 0` as set in `__init__`. -/
def init_rate : RateState := ⟨0⟩

/-- The minimum inter-request interval (`_min_request_interval`, 100 ms). -/
def min_request_interval : ℚ := 1 / 10

/-- `ArkhamDBAPI._rate_limit` under an idealized clock: called at time
`now`, returns the time at which the limiter releases (after sleeping the
remaining delta, if any) and the updated state, whose timestamp is the
release time. -/
def rate_limit (st : RateState) (now : ℚ) : ℚ × RateState :=
  let since := now - st.last_request_time
  if since < min_request_interval then
    let t := now + (min_request_interval - since)
    (t, ⟨t⟩)
  else (now, ⟨now⟩)

/-! Concrete fixture cards, used by counterexamples and witnesses. -/

/-- A card with every field absent. -/
def blankCard : Card := ⟨none, none, none, none, none, none, none, none, none⟩

def rolandCard : Card :=
  { blankCard with name := some "Roland Banks", code := some "01001" }

/-- A card whose text (only) mentions "roland". -/
def textRolandCard : Card :=
  { blankCard with
    name := some "Machete"
    code := some "01020"
    text := some "You get roland stuff" }

/-- A card whose name contains (but does not start with) "roland". -/
def containsRolandCard : Card :=
  { blankCard with name := some "Xx Roland Xx", code := some "02001" }

/-- A card whose name is exactly "Roland". -/
def exactRolandCard : Card :=
  { blankCard with name := some "Roland", code := some "03001" }

/-- A second, distinct card sharing `rolandCard`'s code. -/
def dupCodeCard : Card :=
  { blankCard with name := some "Duplicate", code := some "01001" }

/-- A card with no `code` field. -/
def noCodeCard : Card := { blankCard with name := some "Nameless" }

/-- A card classified as an encounter card. -/
def encounterCard : Card :=
  { blankCard with
    name := some "Roland Ghoul"
    code := some "01161"
    faction_code := some "mythos"
    type_code := some "enemy" }

/-!  Small-step interleaving model of `_ensure_cards_loaded`.

Any number of caller threads (numbered by `Nat`) each run the body of
`_ensure_cards_loaded` against the shared class-level state.  Program
points follow the source: the lock-free populated fast path, acquiring
`_cache_lock`, the locked triple check, running `_load_all_cards` with the
lock released, the locked publish inside `_set_shared_data`, and the locked
`finally` block that clears `_shared_loading`.  Statements executed while
holding the lock are single atomic steps, which is faithful because every
access to the guarded fields in the source happens under the same lock. -/

/-- Program points of one caller of `_ensure_cards_loaded`. -/
inductive PC where
  /-- About to perform the lock-free populated check. -/
  | start
  /-- Waiting to acquire `_cache_lock` for the triple check. -/
  | lockWait
  /-- Holding the lock, about to run the triple check. -/
  | lockHeld
  /-- Claimed the load (set `_shared_loading`), lock released, running
  `_load_all_cards`' network phase. -/
  | loader
  /-- Load succeeded with this list; waiting for the lock to publish. -/
  | pubWait (cs : List Card)
  /-- Holding the lock inside `_set_shared_data`. -/
  | pubHeld (cs : List Card)
  /-- Loader finished with this outcome; waiting for the lock in `finally`. -/
  | finWait (b : Bool)
  /-- Holding the lock in the `finally` block. -/
  | finHeld (b : Bool)
  /-- Returned from `_ensure_cards_loaded` with this boolean. -/
  | done (b : Bool)
deriving DecidableEq, Repr

/-- The caller is between setting and clearing `_shared_loading`: its
Catalog Loader run is in flight. -/
def PC.inR : PC → Bool
  | .loader => true
  | .pubWait _ => true
  | .pubHeld _ => true
  | .finWait _ => true
  | .finHeld _ => true
  | _ => false

/-- Shared state plus every caller's program point.  `cache` abbreviates
the four co-published views to the card list that generates them. -/
structure Sys where
  cache : Option (List Card)
  loading : Bool
  owner : Option Nat
  pc : Nat → PC

/-- Replace caller `i`'s program point. -/
def setPC (s : Sys) (i : Nat) (v : PC) : Sys :=
  { s with pc := Function.update s.pc i v }

/-- One atomic step taken by caller `i`. -/
inductive StepBy (i : Nat) : Sys → Sys → Prop where
  /-- Lock-free fast path, cache populated: return `True`. -/
  | fast_hit (s : Sys) (cs : List Card) : s.pc i = .start → s.cache = some cs →
      StepBy i s (setPC s i (.done true))
  /-- Lock-free fast path, cache empty: go wait for the lock. -/
  | fast_miss (s : Sys) : s.pc i = .start → s.cache = none →
      StepBy i s (setPC s i .lockWait)
  /-- Acquire the free lock for the triple check. -/
  | acquire (s : Sys) : s.pc i = .lockWait → s.owner = none →
      StepBy i s { setPC s i .lockHeld with owner := some i }
  /-- Locked re-check: populated meanwhile, release and return `True`. -/
  | held_pop (s : Sys) (cs : List Card) : s.pc i = .lockHeld → s.cache = some cs →
      StepBy i s { setPC s i (.done true) with owner := none }
  /-- Locked check: another loader in flight, release and return `False`. -/
  | held_busy (s : Sys) : s.pc i = .lockHeld → s.cache = none → s.loading = true →
      StepBy i s { setPC s i (.done false) with owner := none }
  /-- Locked check: claim the load, set the flag, release, start loading. -/
  | held_claim (s : Sys) : s.pc i = .lockHeld → s.cache = none → s.loading = false →
      StepBy i s { setPC s i .loader with owner := none, loading := true }
  /-- `_load_all_cards` fails (all endpoints failed or empty). -/
  | load_fail (s : Sys) : s.pc i = .loader →
      StepBy i s (setPC s i (.finWait false))
  /-- `_load_all_cards` obtained a card list; go publish it. -/
  | load_ok (s : Sys) (cs : List Card) : s.pc i = .loader →
      StepBy i s (setPC s i (.pubWait cs))
  /-- Acquire the free lock inside `_set_shared_data`. -/
  | pub_acquire (s : Sys) (cs : List Card) : s.pc i = .pubWait cs → s.owner = none →
      StepBy i s { setPC s i (.pubHeld cs) with owner := some i }
  /-- Atomically publish all views and release the lock. -/
  | publish (s : Sys) (cs : List Card) : s.pc i = .pubHeld cs →
      StepBy i s { setPC s i (.finWait true) with owner := none, cache := some cs }
  /-- Acquire the free lock for the `finally` block. -/
  | fin_acquire (s : Sys) (b : Bool) : s.pc i = .finWait b → s.owner = none →
      StepBy i s { setPC s i (.finHeld b) with owner := some i }
  /-- Clear `_shared_loading`, release, and return the loader's outcome. -/
  | fin_clear (s : Sys) (b : Bool) : s.pc i = .finHeld b →
      StepBy i s { setPC s i (.done b) with owner := none, loading := false }

/-- An interleaving step: some caller moves. -/
def SysStep (s s' : Sys) : Prop := ∃ i, StepBy i s s'

/-- Process start: empty cache, flag clear, lock free, every caller at the
top of `_ensure_cards_loaded`. -/
def initSys : Sys := { cache := none, loading := false, owner := none, pc := fun _ => .start }

/-- States of the interleaving system reachable from process start. -/
def Reachable (s : Sys) : Prop := Relation.ReflTransGen SysStep initSys s

/-- The inductive invariant of the shared store: in-flight loaders hold the
flag, there is at most one of them, and a set flag means one is in flight. -/
def SysInv (s : Sys) : Prop :=
  (∀ i, (s.pc i).inR = true → s.loading = true) ∧
  (∀ i j, (s.pc i).inR = true → (s.pc j).inR = true → i = j) ∧
  (s.loading = true → ∃ i, (s.pc i).inR = true)

/-- `x` occurs strictly before `y` in the list `l`. -/
def Before (l : List Card) (x y : Card) : Prop :=
  ∃ i j, i < j ∧ l.get? i = some x ∧ l.get? j = some y

/-- One step of first-occurrence key collection (what `dictInsert` does to
the key sequence of a dict). -/
def seenFold (acc : List String) (k : String) : List String :=
  if k ∈ acc then acc else acc ++ [k]

/-- The key sequence of a Python dict built from this key sequence: first
occurrences, in order. -/
def dedupKeys (ks : List String) : List String :=
  ks.foldl seenFold []

/-- The encounter-filter admission test of the scan loop (an entry is
scanned iff encounter cards are included or it is not one). -/
def eligB (include_encounter : Bool) (e : IndexEntry) : Bool :=
  include_encounter || !e.is_encounter

/-- How many leading entries the scan loop consumes before it accumulates
`need` admitted matches (or runs out of entries). -/
def cut (q : String) (include_text include_encounter : Bool) :
    Nat → List IndexEntry → Nat
  | _, [] => 0
  | need, e :: rest =>
    if eligB include_encounter e && (tier_of q include_text e).isSome then
      if need ≤ 1 then 1 else 1 + cut q include_text include_encounter (need - 1) rest
    else 1 + cut q include_text include_encounter need rest

/-- The cards of the admitted entries of `l` classified into tier `t`. -/
def tierList (q : String) (include_text include_encounter : Bool) (t : Tier)
    (l : List IndexEntry) : List Card :=
  (l.filter (fun e => eligB include_encounter e && decide (tier_of q include_text e = some t))).map
    IndexEntry.card

/-- The six buckets the scan loop produces over the entry list `l` when it
does not hit its limit inside `l`. -/
def bucketsOf (q : String) (include_text include_encounter : Bool)
    (l : List IndexEntry) : Buckets :=
  ⟨tierList q include_text include_encounter .exact l,
   tierList q include_text include_encounter .pfx l,
   tierList q include_text include_encounter .sub l,
   tierList q include_text include_encounter .icontains l,
   tierList q include_text include_encounter .itraits l,
   tierList q include_text include_encounter .itext l⟩

/-- Position of a card in the index (via the index's card sequence). -/
def posOf (index : List IndexEntry) (c : Card) : Nat :=
  (index.map IndexEntry.card).indexOf c

/-- The first index entry carrying this card. -/
def entryFor (index : List IndexEntry) (c : Card) : Option IndexEntry :=
  index.find? (fun e => decide (e.card = c))

/-- The tier rank of a card under this query: the position of the tier its
(first) entry is classified into, or 6 when unclassified. -/
def tierRank (q : String) (include_text : Bool) (index : List IndexEntry) (c : Card) : Nat :=
  match entryFor index c with
  | some e =>
    match tier_of q include_text e with
    | some t => tierIdx t
    | none => 6
  | none => 6

/-- The result ordering key of a card: tier rank first, index position
second (lexicographically, packed into one number). -/
def keyOf (q : String) (include_text : Bool) (index : List IndexEntry) (c : Card) : Nat :=
  tierRank q include_text index c * (index.length + 1) + posOf index c

/-!  Basic state lemmas. -/

/-- Rebuilding a `CacheState` with its own `loading` value is the identity. -/
theorem CacheState.set_loading_self (st : CacheState) : { st with loading := st.loading } = st := by
  cases st
  rfl

/-- A failed `_load_all_cards` run returns the state it was given. -/
theorem load_all_cards_fail_state (st : CacheState) (r : Responses)
    (h : (load_all_cards st r).1 = false) : (load_all_cards st r).2 = st := by
  unfold load_all_cards at h ⊢
  cases hf : r.fast with
  | none =>
    simp only [hf] at h ⊢
    by_cases hc : fallback_cards r = []
    · simp [hc]
    · simp [hc] at h
  | some cs =>
    simp only [hf] at h ⊢
    by_cases hlen : 0 < cs.length
    · simp [hlen] at h
    · by_cases hc : fallback_cards r = []
      · simp [hlen, hc]
      · simp [hlen, hc] at h

/-- `set_shared_data` never touches the loading flag. -/
theorem set_shared_data_loading (st : CacheState) (cards : List Card) :
    (set_shared_data st cards).loading = st.loading := rfl

/-- A successful `_load_all_cards` run lands exactly on the `set_shared_data`
publication of some card list. -/
theorem load_all_cards_ok_state (st : CacheState) (r : Responses)
    (h : (load_all_cards st r).1 = true) :
    ∃ cs, (load_all_cards st r).2 = set_shared_data st cs ∧ cs ≠ [] := by
  unfold load_all_cards at h ⊢
  cases hf : r.fast with
  | none =>
    simp only [hf] at h ⊢
    by_cases hc : fallback_cards r = []
    · simp [hc] at h
    · exact ⟨fallback_cards r, by simp [hc], hc⟩
  | some cs =>
    simp only [hf] at h ⊢
    by_cases hlen : 0 < cs.length
    · refine ⟨cs, by simp [hlen], ?_⟩
      intro hnil
      simp [hnil] at hlen
    · by_cases hc : fallback_cards r = []
      · simp [hlen, hc] at h
      · exact ⟨fallback_cards r, by simp [hlen, hc], hc⟩

/-- Publishing from a state whose loading flag was raised publishes the same
views, with the flag still raised. -/
theorem set_shared_data_loading_set (st : CacheState) (cs : List Card) :
    set_shared_data { st with loading := true } cs = { set_shared_data st cs with loading := true } := rfl

/-- Clearing the loading flag of a state whose flag is already clear is the
identity. -/
theorem clear_loading_eq (st : CacheState) (hl : st.loading = false) :
    { st with loading := false } = st := by
  rw [← hl]

/-- `_ensure_cards_loaded` under contention: cache empty, flag set by
another caller: return `False` without touching anything. -/
theorem ensure_busy_eq (st : CacheState) (r : Responses)
    (hc : st.all_cards = none) (hl : st.loading = true) :
    ensure_cards_loaded st r = (false, st) := by
  unfold ensure_cards_loaded
  rw [hc, hl]
  simp

/-- `_ensure_cards_loaded` when its own load attempt fails: return `False`
with the state exactly as it was (flag cleared again). -/
theorem ensure_fail_eq (st : CacheState) (r : Responses)
    (hc : st.all_cards = none) (hl : st.loading = false)
    (hload : (load_all_cards { st with loading := true } r).1 = false) :
    ensure_cards_loaded st r = (false, st) := by
  obtain ⟨a, b, c, d, e⟩ := st
  have ha : a = none := hc
  have he : e = false := hl
  subst ha
  subst he
  have hst := load_all_cards_fail_state _ r hload
  simp only [ensure_cards_loaded]
  simp only [Option.isSome_none, Bool.false_eq_true, if_false, hst, hload]

/-- `_ensure_cards_loaded` when its own load attempt succeeds: return
`True`, landing exactly on the publication of the loaded list. -/
theorem ensure_ok_eq (st : CacheState) (r : Responses)
    (hc : st.all_cards = none) (hl : st.loading = false)
    (hload : (load_all_cards { st with loading := true } r).1 = true) :
    ∃ cs, cs ≠ [] ∧ ensure_cards_loaded st r = (true, set_shared_data st cs) := by
  obtain ⟨a, b, c, d, e⟩ := st
  have ha : a = none := hc
  have he : e = false := hl
  subst ha
  subst he
  obtain ⟨cs, hst, hne⟩ := load_all_cards_ok_state _ r hload
  refine ⟨cs, hne, ?_⟩
  simp only [ensure_cards_loaded]
  simp only [Option.isSome_none, Bool.false_eq_true, if_false, hst, hload]
  rfl

/-- C2, counterexample: with an empty cache and a transport whose fast-path
endpoint succeeds, `search_cards` triggers the catalog load itself and
returns a non-empty result — it does not return empty and leave the load to
the caller, because it calls `_ensure_cards_loaded`, which runs the loader. -/
theorem search_cards_empty_cache_loads :
    initial_cache.all_cards = none ∧
    (search_cards initial_cache ⟨some [rolandCard], none, none⟩ "Roland" none true).1 = [rolandCard] ∧
    (search_cards initial_cache ⟨some [rolandCard], none, none⟩ "Roland" none true).1 ≠ [] ∧
    (search_cards initial_cache ⟨some [rolandCard], none, none⟩ "Roland" none true).2.all_cards
      = some [rolandCard] :=
  ⟨rfl, rfl, by decide, rfl⟩

/-- C2, amended: when the cache is empty, `search_cards` itself invokes
`_ensure_cards_loaded`, which performs the catalog load unless another
loader is in flight.  Search returns an empty result, leaving the state
unchanged, exactly when that call fails: either the loading flag was set by
another caller, or its own load attempt failed.  When its own load
succeeds — through the fast path or the fallback tiers — search answers
from the freshly published index. -/
theorem search_cards_empty_cache (st : CacheState) (r : Responses) (q : String)
    (lim : Option Int) (ie : Bool) (hc : st.all_cards = none) :
    (st.loading = true → search_cards st r q lim ie = ([], st)) ∧
    (st.loading = false → (load_all_cards { st with loading := true } r).1 = false →
      search_cards st r q lim ie = ([], st)) ∧
    (st.loading = false → (load_all_cards { st with loading := true } r).1 = true →
      ∃ cs, cs ≠ [] ∧
        search_cards st r q lim ie =
          (search_cards_loaded (build_search_index cs) q lim ie, set_shared_data st cs)) ∧
    (search_cards st r q lim ie = ([], st) ↔
      (st.loading = true ∨ (load_all_cards { st with loading := true } r).1 = false)) := by
  have hbusy : st.loading = true → search_cards st r q lim ie = ([], st) := by
    intro hl
    rw [search_cards, ensure_busy_eq st r hc hl]
    rfl
  have hfail : st.loading = false → (load_all_cards { st with loading := true } r).1 = false →
      search_cards st r q lim ie = ([], st) := by
    intro hl hload
    rw [search_cards, ensure_fail_eq st r hc hl hload]
    rfl
  have hok : st.loading = false → (load_all_cards { st with loading := true } r).1 = true →
      ∃ cs, cs ≠ [] ∧
        search_cards st r q lim ie =
          (search_cards_loaded (build_search_index cs) q lim ie, set_shared_data st cs) := by
    intro hl hload
    obtain ⟨cs, hne, hens⟩ := ensure_ok_eq st r hc hl hload
    refine ⟨cs, hne, ?_⟩
    rw [search_cards, hens]
    rfl
  refine ⟨hbusy, hfail, hok, ?_, ?_⟩
  · intro heq
    by_cases hl : st.loading = true
    · exact Or.inl hl
    · have hl2 : st.loading = false := by simpa using hl
      by_cases hload : (load_all_cards { st with loading := true } r).1 = false
      · exact Or.inr hload
      · exfalso
        have hload2 : (load_all_cards { st with loading := true } r).1 = true := by
          simpa using hload
        obtain ⟨cs, _, heq2⟩ := hok hl2 hload2
        rw [heq2] at heq
        have h2 : set_shared_data st cs = st := congrArg Prod.snd heq
        have h4 := congrArg CacheState.all_cards h2
        rw [hc] at h4
        have h5 : (set_shared_data st cs).all_cards = some cs := rfl
        rw [h5] at h4
        exact Option.noConfusion h4
  · rintro (hl | hload)
    · exact hbusy hl
    · by_cases hl : st.loading = true
      · exact hbusy hl
      · exact hfail (by simpa using hl) hload

/-- C5: the fallback merge is first-wins keyed by `code`: the accumulated
list keeps every earlier-tier card, later tiers contribute only cards whose
code is not already present, and any accumulated card carrying an
already-known code is one of the earlier-tier cards.  In particular a first
fallback tier answering with an empty list followed by a second tier
answering `cs ≠ []` ends with `_ensure_cards_loaded` returning `True` and
the published cache holding exactly `cs`. -/
theorem loader_tier_fallback_first_wins (st : CacheState) (r : Responses) (cs : List Card)
    (hc : st.all_cards = none) (hl : st.loading = false)
    (hf : r.fast = none ∨ r.fast = some []) (ht1 : r.tier1 = some [])
    (ht2 : r.tier2 = some cs) (hcs : cs ≠ []) :
    (∀ l1 l2 : List Card, l1 ≠ [] →
      (∀ c ∈ tierAccum l1 (some l2), c ∈ l1 ∨ (c ∈ l2 ∧ c.code ∉ l1.map Card.code)) ∧
      (∀ c ∈ l1, c ∈ tierAccum l1 (some l2)) ∧
      (∀ c ∈ tierAccum l1 (some l2), c.code ∈ l1.map Card.code → c ∈ l1)) ∧
    ensure_cards_loaded st r = (true, set_shared_data st cs) ∧
    (set_shared_data st cs).all_cards = some cs := by
  refine ⟨?_, ?_, rfl⟩
  · intro l1 l2 hne
    simp only [tierAccum, if_neg hne]
    refine ⟨?_, ?_, ?_⟩
    · intro c hmem
      rcases List.mem_append.mp hmem with h | h
      · exact Or.inl h
      · obtain ⟨hml, hfl⟩ := List.mem_filter.mp h
        refine Or.inr ⟨hml, ?_⟩
        simpa using hfl
    · intro c hmem
      exact List.mem_append_left _ hmem
    · intro c hmem hcode
      rcases List.mem_append.mp hmem with h | h
      · exact h
      · obtain ⟨_, hfl⟩ := List.mem_filter.mp h
        have : c.code ∉ l1.map Card.code := by simpa using hfl
        exact absurd hcode this
  · obtain ⟨a, b, c, d, e⟩ := st
    have ha : a = none := hc
    have he : e = false := hl
    subst ha
    subst he
    have hfb : fallback_cards r = cs := by
      simp [fallback_cards, ht1, ht2, tierAccum]
    have hload : load_all_cards { (⟨none, b, c, d, false⟩ : CacheState) with loading := true } r
        = (true, set_shared_data { (⟨none, b, c, d, false⟩ : CacheState) with loading := true } cs) := by
      unfold load_all_cards
      rcases hf with hf | hf <;> rw [hf] <;> simp [hfb, hcs]
    simp only [ensure_cards_loaded]
    simp only [Option.isSome_none, Bool.false_eq_true, if_false, hload]
    rfl

/-- C6: when the fast path and every fallback tier fails or returns an
empty catalog, `_ensure_cards_loaded` returns `False` and the cache state
is exactly what it was — unpopulated, loading flag clear — and a later call
with a succeeding transport still returns `True` and publishes all views
from the newly loaded list. -/
theorem ensure_all_fail_retryable (st : CacheState) (r : Responses)
    (hc : st.all_cards = none) (hl : st.loading = false)
    (hf : r.fast = none ∨ r.fast = some [])
    (ht1 : r.tier1 = none ∨ r.tier1 = some [])
    (ht2 : r.tier2 = none ∨ r.tier2 = some []) :
    ensure_cards_loaded st r = (false, st) ∧
    (∀ r2 : Responses, ∀ cs : List Card, r2.fast = some cs → cs ≠ [] →
      ensure_cards_loaded st r2 = (true, set_shared_data st cs) ∧
      (set_shared_data st cs).all_cards = some cs ∧
      (set_shared_data st cs).search_index = build_search_index cs ∧
      (set_shared_data st cs).loading = false) := by
  have hfb : fallback_cards r = [] := by
    unfold fallback_cards
    rcases ht1 with h1 | h1 <;> rcases ht2 with h2 | h2 <;> simp [h1, h2, tierAccum]
  constructor
  · have hload : (load_all_cards { st with loading := true } r).1 = false := by
      unfold load_all_cards
      rcases hf with hfc | hfc <;> rw [hfc] <;> simp [hfb]
    exact ensure_fail_eq st r hc hl hload
  · intro r2 cs hf2 hcs
    have hlen : 0 < cs.length := List.length_pos.mpr hcs
    obtain ⟨a, b, c, d, e⟩ := st
    have ha : a = none := hc
    have he : e = false := hl
    subst ha
    subst he
    have hload : load_all_cards { (⟨none, b, c, d, false⟩ : CacheState) with loading := true } r2
        = (true, set_shared_data { (⟨none, b, c, d, false⟩ : CacheState) with loading := true } cs) := by
      unfold load_all_cards
      rw [hf2]
      simp [hlen]
    refine ⟨?_, rfl, rfl, rfl⟩
    simp only [ensure_cards_loaded]
    simp only [Option.isSome_none, Bool.false_eq_true, if_false, hload]
    rfl

/-- Witness for the amended C2 theorem at a concrete input: from the empty
initial cache, with a transport whose fast path fails but whose fallback
tiers succeed, search performs the load itself and answers from the fresh
index; and the empty-and-unchanged outcome is equivalent to the failure
condition there. -/
theorem search_cards_empty_cache_witness :
    (∃ cs, cs ≠ [] ∧
      search_cards initial_cache ⟨none, some [], some [rolandCard]⟩ "Roland" none true
        = (search_cards_loaded (build_search_index cs) "Roland" none true,
           set_shared_data initial_cache cs)) ∧
    (search_cards initial_cache ⟨none, some [], some [rolandCard]⟩ "Roland" none true
      = ([], initial_cache) ↔
     (initial_cache.loading = true ∨
      (load_all_cards { initial_cache with loading := true }
        ⟨none, some [], some [rolandCard]⟩).1 = false)) :=
  ⟨(search_cards_empty_cache initial_cache ⟨none, some [], some [rolandCard]⟩ "Roland" none true
      rfl).2.2.1 rfl rfl,
   (search_cards_empty_cache initial_cache ⟨none, some [], some [rolandCard]⟩ "Roland" none true
      rfl).2.2.2⟩

/-- Witness for the C5 theorem at a concrete input: first fallback tier
empty, second tier two cards, loader succeeds with exactly those cards. -/
theorem loader_tier_fallback_first_wins_witness :
    ensure_cards_loaded initial_cache ⟨none, some [], some [rolandCard, textRolandCard]⟩
      = (true, set_shared_data initial_cache [rolandCard, textRolandCard]) :=
  (loader_tier_fallback_first_wins initial_cache ⟨none, some [], some [rolandCard, textRolandCard]⟩
    [rolandCard, textRolandCard] rfl rfl (Or.inl rfl) rfl rfl (by decide)).2.1

/-- Witness for the C6 theorem at a concrete input: all three endpoints
fail, `ensureLoaded` reports `False` with the state untouched, and a later
call with a good transport publishes. -/
theorem ensure_all_fail_retryable_witness :
    ensure_cards_loaded initial_cache ⟨none, none, none⟩ = (false, initial_cache) ∧
    ensure_cards_loaded initial_cache ⟨some [rolandCard], none, none⟩
      = (true, set_shared_data initial_cache [rolandCard]) := by
  have h := ensure_all_fail_retryable initial_cache ⟨none, none, none⟩ rfl rfl
    (Or.inl rfl) (Or.inl rfl) (Or.inl rfl)
  exact ⟨h.1, (h.2 ⟨some [rolandCard], none, none⟩ [rolandCard] rfl (by decide)).1⟩

/-- C7, counterexample: `_last_request_time` is an instance attribute set to
`0` in `__init__`, so a fresh second engine instance does not observe the
first instance's timestamp: its request at time 101/100, issued 1/100 after
the first instance's request at time 1, is not delayed at all, violating
the claimed process-wide minimum spacing of 1/10. -/
theorem rate_limit_not_shared :
    (rate_limit init_rate 1).1 = 1 ∧
    (rate_limit init_rate (101/100)).1 = 101/100 ∧
    (rate_limit init_rate (101/100)).1 < (rate_limit init_rate 1).1 + min_request_interval := by
  refine ⟨?_, ?_, ?_⟩ <;> norm_num [rate_limit, init_rate, min_request_interval]

/-- Wherever the limiter releases, it is at least one minimum interval
after the timestamp recorded in the state it was called with. -/
theorem rate_limit_release_lower_bound (st : RateState) (now : ℚ) :
    st.last_request_time + min_request_interval ≤ (rate_limit st now).1 := by
  unfold rate_limit
  dsimp only
  split
  · rename_i h
    dsimp only
    linarith
  · rename_i h
    dsimp only
    linarith [not_lt.mp h]

/-- The limiter records its release time as the new timestamp. -/
theorem rate_limit_state_eq (st : RateState) (now : ℚ) :
    (rate_limit st now).2.last_request_time = (rate_limit st now).1 := by
  unfold rate_limit
  dsimp only
  split <;> rfl

/-- C7, amended: the rate limiter's timestamp is per engine instance, not
process-wide.  Two consecutive rate-limited requests through the *same*
instance are spaced by at least the minimum interval (the second release
time is at least the first release time plus 1/10), but a request through a
different, fresh instance observes `_last_request_time = 0` and is not
delayed relative to other instances' requests. -/
theorem rate_limit_same_instance_spacing (st : RateState) (now1 now2 : ℚ) :
    (rate_limit st now1).1 + min_request_interval ≤ (rate_limit (rate_limit st now1).2 now2).1 := by
  have h := rate_limit_release_lower_bound (rate_limit st now1).2 now2
  rwa [rate_limit_state_eq] at h

/-- C10: with limit 1 and an index whose first entry only *contains* the
query while a later entry matches it *exactly*, the scan stops after the
first match: the result is just the contains-tier card and the later
exact-tier card is absent.  The output is the first `limit` matches in
index order, not the best `limit` matches by tier. -/
theorem search_early_break_misses_later_exact :
    search_cards_loaded (build_search_index [containsRolandCard, exactRolandCard]) "roland" (some 1) true
      = [containsRolandCard] ∧
    tier_of "roland" true (build_entry exactRolandCard) = some Tier.exact ∧
    tier_of "roland" true (build_entry containsRolandCard) = some Tier.icontains ∧
    exactRolandCard ∉
      search_cards_loaded (build_search_index [containsRolandCard, exactRolandCard]) "roland" (some 1) true ∧
    (build_search_index [containsRolandCard, exactRolandCard]).get? 1 = some (build_entry exactRolandCard) :=
  ⟨rfl, rfl, rfl, by decide, rfl⟩

/-!  Python dict lemmas. -/

theorem find?_map_overwrite {α : Type} (k : String) (v : α) (k' : String) (h : k' ≠ k)
    (m : List (String × α)) :
    (m.map (fun p => if p.1 = k then (k, v) else p)).find? (fun p => decide (p.1 = k'))
      = m.find? (fun p => decide (p.1 = k')) := by
  induction m with
  | nil => rfl
  | cons p ps ih =>
    by_cases hp : p.1 = k
    · have h1 : ((k, v).1 = k') = False := by simp [Ne.symm h]
      have h2 : (p.1 = k') = False := by
        simp only [hp, eq_iff_iff, iff_false]
        exact Ne.symm h
      simp [List.find?_cons, hp, h1, h2, ih]
    · simp only [List.map_cons, if_neg hp]
      rcases hd : decide (p.1 = k') with _ | _
      · simp [List.find?_cons, hd, ih]
      · simp [List.find?_cons, hd]

theorem find?_map_overwrite_hit {α : Type} (k : String) (v : α) (m : List (String × α))
    (h : m.any (fun p => p.1 = k) = true) :
    (m.map (fun p => if p.1 = k then (k, v) else p)).find? (fun p => decide (p.1 = k))
      = some (k, v) := by
  induction m with
  | nil => simp at h
  | cons p ps ih =>
    by_cases hp : p.1 = k
    · simp [List.find?_cons, hp]
    · have h' : ps.any (fun p => p.1 = k) = true := by
        simp only [List.any_cons, Bool.or_eq_true, decide_eq_true_eq] at h
        rcases h with h | h
        · exact absurd h hp
        · simpa using h
      simp [List.find?_cons, hp, ih h']

theorem pyGet_dictInsert {α : Type} (m : List (String × α)) (k : String) (v : α) (k' : String) :
    pyGet (dictInsert m k v) k' = if k' = k then some v else pyGet m k' := by
  unfold dictInsert pyGet
  by_cases hany : m.any (fun p => p.1 = k) = true
  · rw [if_pos hany]
    by_cases hk : k' = k
    · subst hk
      rw [find?_map_overwrite_hit k' v m hany]
      simp
    · rw [find?_map_overwrite k v k' hk m, if_neg hk]
  · rw [if_neg hany]
    have hnone : m.find? (fun p => decide (p.1 = k)) = none := by
      rw [List.find?_eq_none]
      intro x hx
      simp only [decide_eq_true_eq]
      intro hxk
      exact hany (List.any_eq_true.mpr ⟨x, hx, by simp [hxk]⟩)
    by_cases hk : k' = k
    · subst hk
      rw [List.find?_append, hnone]
      simp
    · rw [List.find?_append]
      have : ([(k, v)].find? (fun p => decide (p.1 = k'))) = none := by
        simp [Ne.symm hk]
      rw [this]
      cases hm : m.find? (fun p => decide (p.1 = k')) <;> simp [hk]

theorem pyDict_append_single {α : Type} (kvs : List (String × α)) (q : String × α) :
    pyDict (kvs ++ [q]) = dictInsert (pyDict kvs) q.1 q.2 := by
  unfold pyDict
  rw [List.foldl_append]
  rfl

theorem pyGet_pyDict {α : Type} (kvs : List (String × α)) (k : String) :
    pyGet (pyDict kvs) k = ((kvs.filter (fun p => p.1 = k)).getLast?).map (fun p => p.2) := by
  induction kvs using List.reverseRecOn with
  | nil => rfl
  | append_singleton l q ih =>
    rw [pyDict_append_single, pyGet_dictInsert]
    by_cases hk : k = q.1
    · rw [if_pos hk]
      have hf : (l ++ [q]).filter (fun p => p.1 = k) = l.filter (fun p => p.1 = k) ++ [q] := by
        rw [List.filter_append]
        simp [hk.symm]
      rw [hf, List.getLast?_concat]
      rfl
    · rw [if_neg hk]
      have hf : (l ++ [q]).filter (fun p => p.1 = k) = l.filter (fun p => p.1 = k) := by
        rw [List.filter_append]
        simp [Ne.symm hk]
      rw [hf, ih]
theorem dictInsert_keys {α : Type} (m : List (String × α)) (k : String) (v : α) :
    (dictInsert m k v).map Prod.fst = seenFold (m.map Prod.fst) k := by
  unfold dictInsert seenFold
  by_cases hany : m.any (fun p => p.1 = k) = true
  · have hmem : k ∈ m.map Prod.fst := by
      obtain ⟨p, hp, he⟩ := List.any_eq_true.mp hany
      simp only [decide_eq_true_eq] at he
      exact he ▸ List.mem_map_of_mem Prod.fst hp
    rw [if_pos hany, if_pos hmem, List.map_map]
    apply List.map_congr_left
    intro p _
    by_cases hp : p.1 = k
    · simp [hp]
    · simp [hp]
  · have hmem : k ∉ m.map Prod.fst := by
      intro hk
      obtain ⟨p, hp, he⟩ := List.mem_map.mp hk
      exact hany (List.any_eq_true.mpr ⟨p, hp, by simp [he]⟩)
    rw [if_neg hany, if_neg hmem, List.map_append]
    rfl

theorem pyDict_keys_gen {α : Type} (kvs : List (String × α)) : ∀ acc : List (String × α),
    ((kvs.foldl (fun m kv => dictInsert m kv.1 kv.2) acc).map Prod.fst)
      = (kvs.map Prod.fst).foldl seenFold (acc.map Prod.fst) := by
  induction kvs with
  | nil => intro acc; rfl
  | cons p ps ih =>
    intro acc
    simp only [List.foldl_cons, List.map_cons]
    rw [ih, dictInsert_keys]

theorem pyDict_keys {α : Type} (kvs : List (String × α)) :
    (pyDict kvs).map Prod.fst = dedupKeys (kvs.map Prod.fst) :=
  pyDict_keys_gen kvs []

theorem dedupKeys_eq_self : ∀ (ks acc : List String), ks.Nodup → (∀ k ∈ ks, k ∉ acc) →
    ks.foldl seenFold acc = acc ++ ks := by
  intro ks
  induction ks with
  | nil => simp
  | cons k ks ih =>
    intro acc hnd hdisj
    simp only [List.foldl_cons]
    rw [seenFold, if_neg (hdisj k (List.mem_cons_self k ks))]
    rw [ih (acc ++ [k]) (List.Nodup.of_cons hnd) ?_]
    · simp
    · intro k' hk'
      rw [List.mem_append]
      rintro (h | h)
      · exact hdisj k' (List.mem_cons_of_mem k hk') h
      · rw [List.mem_singleton] at h
        subst h
        exact (List.nodup_cons.mp hnd).1 hk'

theorem filterMap_length_all_some {α β : Type} (f : α → Option β) :
    ∀ l : List α, (∀ x ∈ l, (f x).isSome = true) → (l.filterMap f).length = l.length := by
  intro l
  induction l with
  | nil => intro _; rfl
  | cons x xs ih =>
    intro h
    have hx := h x (List.mem_cons_self x xs)
    obtain ⟨b, hb⟩ := Option.isSome_iff_exists.mp hx
    simp only [List.filterMap_cons, hb, List.length_cons]
    rw [ih (fun y hy => h y (List.mem_cons_of_mem x hy))]

theorem keyed_kvs_filter {α : Type} (f : α → Option String) (l : List α) (k : String) :
    (l.filterMap (fun x => (f x).map (fun s => (s, x)))).filter (fun p => p.1 = k)
      = (l.filter (fun x => f x = some k)).map (fun x => (k, x)) := by
  induction l with
  | nil => rfl
  | cons x xs ih =>
    cases hf : f x with
    | none => simp [List.filterMap_cons, List.filter_cons, hf, ih]
    | some s =>
      by_cases hs : s = k
      · subst hs
        simp [List.filterMap_cons, List.filter_cons, hf, ih]
      · simp [List.filterMap_cons, List.filter_cons, hf, hs, ih, Option.map_some]

theorem getLast?_map_snd {α : Type} (k : String) (L : List α) :
    ((L.map (fun x => (k, x))).getLast?).map (fun p => p.2) = L.getLast? := by
  induction L using List.reverseRecOn with
  | nil => rfl
  | append_singleton l a _ =>
    rw [List.map_append]
    simp [List.getLast?_concat]

theorem pyDict_keyed_get {α : Type} (f : α → Option String) (l : List α) (k : String) :
    pyGet (pyDict (l.filterMap (fun x => (f x).map (fun s => (s, x))))) k
      = (l.filter (fun x => f x = some k)).getLast? := by
  rw [pyGet_pyDict, keyed_kvs_filter]
  exact getLast?_map_snd k _

theorem keyed_kvs_keys {α : Type} (f : α → Option String) (l : List α) :
    (l.filterMap (fun x => (f x).map (fun s => (s, x)))).map Prod.fst = l.filterMap f := by
  induction l with
  | nil => rfl
  | cons x xs ih =>
    cases hf : f x <;> simp [List.filterMap_cons, hf, ih]
/-- Keys of the code-keyed dict of index entries. -/
theorem index_kvs_keys (l : List IndexEntry) :
    (l.filterMap (fun e => (truthyCode e.card).map (fun s => (s, e)))).map Prod.fst
      = l.filterMap (fun e => truthyCode e.card) :=
  keyed_kvs_keys (fun e => truthyCode e.card) l

/-- The entry-level truthy codes of a built index are the card-level ones. -/
theorem build_filterMap_codes (cs : List Card) :
    (build_search_index cs).filterMap (fun e => truthyCode e.card) = cs.filterMap truthyCode := by
  rw [build_search_index, List.filterMap_map]
  rfl

/-- Inversion of a successful `_ensure_cards_loaded` from an empty cache:
the landing state is the publication of some non-empty loaded list. -/
theorem ensure_ok_inv (st : CacheState) (r : Responses) (st' : CacheState)
    (hc : st.all_cards = none) (h : ensure_cards_loaded st r = (true, st')) :
    ∃ cs, cs ≠ [] ∧ st' = set_shared_data st cs := by
  by_cases hl : st.loading = true
  · rw [ensure_busy_eq st r hc hl] at h
    simp at h
  · have hl' : st.loading = false := by simpa using hl
    by_cases hload : (load_all_cards { st with loading := true } r).1 = true
    · obtain ⟨cs, hne, he⟩ := ensure_ok_eq st r hc hl' hload
      rw [he] at h
      exact ⟨cs, hne, ((Prod.mk.injEq _ _ _ _).mp h).2.symm⟩
    · have hload' : (load_all_cards { st with loading := true } r).1 = false := by
        simpa using hload
      rw [ensure_fail_eq st r hc hl' hload'] at h
      simp at h

/-- C3, amended: after every successful load from an empty cache, the two
published sequences (`allCards`, `searchIndex`) have equal cardinality and
rebuilding the index from the published `allCards` yields exactly the
published `searchIndex`; the key sequence of each published map
(`cardsByCode`, `indexByCode`) is exactly the distinct non-empty codes of
the load, in first-occurrence order, so the maps agree with each other on
keys (in order) and cardinality; and when every loaded card has a
distinct, non-empty code (which a successful load does not by itself
guarantee) the maps' keys are exactly the load's code sequence and all
four views share one cardinality. -/
theorem publish_views_agree (st : CacheState) (r : Responses) (st' : CacheState)
    (hc : st.all_cards = none) (hok : ensure_cards_loaded st r = (true, st')) :
    ∃ cs, st'.all_cards = some cs ∧
      st'.search_index = build_search_index cs ∧
      st'.search_index.length = cs.length ∧
      build_search_index cs = st'.search_index ∧
      st'.cards_cache.map Prod.fst = dedupKeys (cs.filterMap truthyCode) ∧
      st'.index_by_code.map Prod.fst = dedupKeys (cs.filterMap truthyCode) ∧
      st'.cards_cache.map Prod.fst = st'.index_by_code.map Prod.fst ∧
      st'.cards_cache.length = st'.index_by_code.length ∧
      ((∀ c ∈ cs, (truthyCode c).isSome = true) → (cs.filterMap truthyCode).Nodup →
        st'.cards_cache.map Prod.fst = cs.filterMap truthyCode ∧
        st'.index_by_code.map Prod.fst = cs.filterMap truthyCode ∧
        st'.cards_cache.length = cs.length ∧ st'.index_by_code.length = cs.length) := by
  obtain ⟨cs, _, hst⟩ := ensure_ok_inv st r st' hc hok
  subst hst
  have h1 : (set_shared_data st cs).cards_cache.map Prod.fst
      = dedupKeys (cs.filterMap truthyCode) := by
    show (cards_by_code cs).map Prod.fst = _
    rw [cards_by_code, pyDict_keys, keyed_kvs_keys]
  have h2 : (set_shared_data st cs).index_by_code.map Prod.fst
      = dedupKeys (cs.filterMap truthyCode) := by
    show (index_by_code_of (build_search_index cs)).map Prod.fst = _
    rw [index_by_code_of, pyDict_keys, index_kvs_keys, build_filterMap_codes]
  refine ⟨cs, rfl, rfl, List.length_map _ _, rfl, h1, h2, h1.trans h2.symm, ?_, ?_⟩
  · have := congrArg List.length (h1.trans h2.symm)
    simpa using this
  · intro hall hnd
    have hded : dedupKeys (cs.filterMap truthyCode) = cs.filterMap truthyCode := by
      have := dedupKeys_eq_self (cs.filterMap truthyCode) [] hnd (by simp)
      simpa [dedupKeys] using this
    have hlen : (cs.filterMap truthyCode).length = cs.length :=
      filterMap_length_all_some truthyCode cs hall
    refine ⟨h1.trans hded, h2.trans hded, ?_, ?_⟩
    · have := congrArg List.length h1
      simpa [hded, hlen] using this
    · have := congrArg List.length h2
      simpa [hded, hlen] using this

/-- Witness for the amended C3 theorem, at a successful one-card load. -/
theorem publish_views_agree_witness :
    ∃ cs, (set_shared_data initial_cache [rolandCard]).all_cards = some cs ∧
      (set_shared_data initial_cache [rolandCard]).search_index = build_search_index cs ∧
      (set_shared_data initial_cache [rolandCard]).search_index.length = cs.length ∧
      build_search_index cs = (set_shared_data initial_cache [rolandCard]).search_index ∧
      (set_shared_data initial_cache [rolandCard]).cards_cache.map Prod.fst
        = dedupKeys (cs.filterMap truthyCode) ∧
      (set_shared_data initial_cache [rolandCard]).index_by_code.map Prod.fst
        = dedupKeys (cs.filterMap truthyCode) ∧
      (set_shared_data initial_cache [rolandCard]).cards_cache.map Prod.fst
        = (set_shared_data initial_cache [rolandCard]).index_by_code.map Prod.fst ∧
      (set_shared_data initial_cache [rolandCard]).cards_cache.length
        = (set_shared_data initial_cache [rolandCard]).index_by_code.length ∧
      ((∀ c ∈ cs, (truthyCode c).isSome = true) → (cs.filterMap truthyCode).Nodup →
        (set_shared_data initial_cache [rolandCard]).cards_cache.map Prod.fst
          = cs.filterMap truthyCode ∧
        (set_shared_data initial_cache [rolandCard]).index_by_code.map Prod.fst
          = cs.filterMap truthyCode ∧
        (set_shared_data initial_cache [rolandCard]).cards_cache.length = cs.length ∧
        (set_shared_data initial_cache [rolandCard]).index_by_code.length = cs.length) :=
  publish_views_agree initial_cache ⟨some [rolandCard], none, none⟩
    (set_shared_data initial_cache [rolandCard]) rfl rfl

/-- C3, counterexample: a successful load whose catalog repeats a code
publishes views with different cardinalities: `allCards` and `searchIndex`
keep both occurrences while `cardsByCode` and `indexByCode` collapse them,
so the four views do not all have the same cardinality. -/
theorem publish_views_cardinality_cex :
    (ensure_cards_loaded initial_cache ⟨some [rolandCard, dupCodeCard], none, none⟩).1 = true ∧
    (ensure_cards_loaded initial_cache ⟨some [rolandCard, dupCodeCard], none, none⟩).2.all_cards
      = some [rolandCard, dupCodeCard] ∧
    (ensure_cards_loaded initial_cache ⟨some [rolandCard, dupCodeCard], none, none⟩).2.search_index.length = 2 ∧
    (ensure_cards_loaded initial_cache ⟨some [rolandCard, dupCodeCard], none, none⟩).2.cards_cache.length = 1 ∧
    (ensure_cards_loaded initial_cache ⟨some [rolandCard, dupCodeCard], none, none⟩).2.index_by_code.length = 1 ∧
    (1 : Nat) ≠ 2 :=
  ⟨rfl, rfl, rfl, rfl, rfl, by decide⟩

/-- C9: every publish builds `cardsByCode` and `indexByCode` as last-wins
projections of `allCards` and `searchIndex` restricted to present,
non-empty codes: looking a code up yields the last card (entry) carrying
it; cards without a truthy code stay in `allCards`/`searchIndex` but are
values of neither map; and the cardinality of the maps can drop strictly
below that of the lists (duplicated or missing codes). -/
theorem publish_maps_last_wins (st : CacheState) (cards : List Card) :
    (∀ k, pyGet ((set_shared_data st cards).cards_cache) k
        = (cards.filter (fun c => truthyCode c = some k)).getLast?) ∧
    (∀ k, pyGet ((set_shared_data st cards).index_by_code) k
        = ((build_search_index cards).filter (fun e => truthyCode e.card = some k)).getLast?) ∧
    (∀ c ∈ cards, truthyCode c = none →
      (set_shared_data st cards).all_cards = some cards ∧
      build_entry c ∈ (set_shared_data st cards).search_index ∧
      (∀ k, pyGet ((set_shared_data st cards).cards_cache) k ≠ some c) ∧
      (∀ k, pyGet ((set_shared_data st cards).index_by_code) k ≠ some (build_entry c))) ∧
    (set_shared_data initial_cache [rolandCard, dupCodeCard, noCodeCard]).cards_cache.length = 1 ∧
    ((set_shared_data initial_cache [rolandCard, dupCodeCard, noCodeCard]).all_cards.getD []).length = 3 := by
  have hget1 : ∀ k, pyGet ((set_shared_data st cards).cards_cache) k
      = (cards.filter (fun c => truthyCode c = some k)).getLast? := by
    intro k
    exact pyDict_keyed_get truthyCode cards k
  have hget2 : ∀ k, pyGet ((set_shared_data st cards).index_by_code) k
      = ((build_search_index cards).filter (fun e => truthyCode e.card = some k)).getLast? := by
    intro k
    exact pyDict_keyed_get (fun e => truthyCode e.card) (build_search_index cards) k
  refine ⟨hget1, hget2, ?_, rfl, rfl⟩
  intro c hmem hnone
  refine ⟨rfl, ?_, ?_, ?_⟩
  · exact List.mem_map_of_mem build_entry hmem
  · intro k hk
    rw [hget1 k] at hk
    have hc := List.mem_of_mem_getLast? hk
    have := (List.mem_filter.mp hc).2
    simp only [decide_eq_true_eq] at this
    rw [hnone] at this
    exact Option.noConfusion this
  · intro k hk
    rw [hget2 k] at hk
    have hc := List.mem_of_mem_getLast? hk
    have := (List.mem_filter.mp hc).2
    simp only [decide_eq_true_eq] at this
    have hcard : (build_entry c).card = c := rfl
    rw [hcard, hnone] at this
    exact Option.noConfusion this

/-- Witness for the C9 theorem, instantiating the codeless-card clause on a
concrete publish containing `noCodeCard`. -/
theorem publish_maps_last_wins_witness :
    ∀ k, pyGet ((set_shared_data initial_cache [rolandCard, noCodeCard]).cards_cache) k
      ≠ some noCodeCard :=
  fun k =>
    ((publish_maps_last_wins initial_cache [rolandCard, noCodeCard]).2.2.1 noCodeCard
      (by decide) rfl).2.2.1 k
/-!  Bucket algebra and the scan closed form. -/

theorem Buckets.app_empty (b : Buckets) : b.app Buckets.empty = b := by
  obtain ⟨b1, b2, b3, b4, b5, b6⟩ := b
  simp [Buckets.app, Buckets.empty]

theorem Buckets.empty_app (b : Buckets) : Buckets.empty.app b = b := by
  obtain ⟨b1, b2, b3, b4, b5, b6⟩ := b
  simp [Buckets.app, Buckets.empty]

theorem Buckets.app_assoc (a b c : Buckets) : (a.app b).app c = a.app (b.app c) := by
  obtain ⟨a1, a2, a3, a4, a5, a6⟩ := a
  obtain ⟨b1, b2, b3, b4, b5, b6⟩ := b
  obtain ⟨c1, c2, c3, c4, c5, c6⟩ := c
  simp [Buckets.app]

theorem Buckets.app_single (b : Buckets) (t : Tier) (c : Card) :
    b.app (Buckets.empty.add t c) = b.add t c := by
  obtain ⟨b1, b2, b3, b4, b5, b6⟩ := b
  cases t <;> simp [Buckets.app, Buckets.add, Buckets.empty]

theorem bucketsOf_nil (q : String) (it ie : Bool) : bucketsOf q it ie [] = Buckets.empty := rfl

theorem bucketsOf_bucket (q : String) (it ie : Bool) (l : List IndexEntry) (t : Tier) :
    (bucketsOf q it ie l).bucket t = tierList q it ie t l := by
  cases t <;> rfl

theorem bucketsOf_cons_skip (q : String) (it ie : Bool) (e : IndexEntry) (l : List IndexEntry)
    (h : eligB ie e = false ∨ tier_of q it e = none) :
    bucketsOf q it ie (e :: l) = bucketsOf q it ie l := by
  have hcond : ∀ t : Tier, (eligB ie e && decide (tier_of q it e = some t)) = false := by
    intro t
    rcases h with h | h <;> simp [h]
  unfold bucketsOf tierList
  rw [List.filter_cons, List.filter_cons, List.filter_cons, List.filter_cons,
    List.filter_cons, List.filter_cons]
  simp only [hcond, Bool.false_eq_true, if_false]

theorem bucketsOf_cons_match (q : String) (it ie : Bool) (e : IndexEntry) (l : List IndexEntry)
    (t : Tier) (he : eligB ie e = true) (ht : tier_of q it e = some t) :
    bucketsOf q it ie (e :: l) = (Buckets.empty.add t e.card).app (bucketsOf q it ie l) := by
  have hcond : ∀ t' : Tier, (eligB ie e && decide (tier_of q it e = some t'))
      = decide (t = t') := by
    intro t'
    simp [he, ht]
  unfold bucketsOf tierList
  rw [List.filter_cons, List.filter_cons, List.filter_cons, List.filter_cons,
    List.filter_cons, List.filter_cons]
  simp only [hcond]
  cases t <;> simp [Buckets.add, Buckets.app, Buckets.empty]

theorem tier_of_run_eq (q : String) (it : Bool) (limit total : Nat) (e : IndexEntry)
    (h : total < limit) :
    tier_of_run q it limit total e = tier_of q it e := by
  unfold tier_of_run tier_of
  simp [h]

theorem scan_closed (q : String) (it ie : Bool) (limit : Nat) :
    ∀ (l : List IndexEntry) (b : Buckets) (total : Nat), total < limit →
      scan q it ie limit l b total
        = b.app (bucketsOf q it ie (l.take (cut q it ie (limit - total) l))) := by
  intro l
  induction l with
  | nil =>
    intro b total _
    simp [scan, cut, bucketsOf_nil, Buckets.app_empty]
  | cons e rest ih =>
    intro b total h
    by_cases helig : ie = false ∧ e.is_encounter = true
    · have he : eligB ie e = false := by
        rcases helig with ⟨h1, h2⟩
        simp [eligB, h1, h2]
      have hcond : (eligB ie e && (tier_of q it e).isSome) = false := by simp [he]
      have hcut : cut q it ie (limit - total) (e :: rest)
          = cut q it ie (limit - total) rest + 1 := by
        simp [cut, he, Nat.add_comm]
      rw [hcut, List.take_succ_cons, bucketsOf_cons_skip q it ie e _ (Or.inl he)]
      simp only [scan, if_pos helig]
      exact ih b total h
    · have he : eligB ie e = true := by
        cases hie : ie
        · cases henc : e.is_encounter
          · simp [eligB, henc]
          · exact absurd (⟨hie, henc⟩ : ie = false ∧ e.is_encounter = true) helig
        · simp [eligB]
      cases htr : tier_of_run q it limit total e with
      | none =>
        have hp : tier_of q it e = none := by
          rw [← tier_of_run_eq q it limit total e h]
          exact htr
        have hcond : (eligB ie e && (tier_of q it e).isSome) = false := by simp [hp]
        have hcut : cut q it ie (limit - total) (e :: rest)
            = cut q it ie (limit - total) rest + 1 := by
          simp [cut, hp, Nat.add_comm]
        rw [hcut, List.take_succ_cons, bucketsOf_cons_skip q it ie e _ (Or.inr hp)]
        simp only [scan, if_neg helig, htr]
        exact ih b total h
      | some t =>
        have hp : tier_of q it e = some t := by
          rw [← tier_of_run_eq q it limit total e h]
          exact htr
        have hcond : (eligB ie e && (tier_of q it e).isSome) = true := by simp [he, hp]
        by_cases hlim : limit ≤ total + 1
        · have hneed : limit - total ≤ 1 := by omega
          have hcut : cut q it ie (limit - total) (e :: rest) = 1 := by
            simp [cut, he, hp, hneed]
          rw [hcut, show (e :: rest).take 1 = [e] from rfl]
          rw [bucketsOf_cons_match q it ie e [] t he hp, bucketsOf_nil,
            Buckets.app_empty, Buckets.app_single]
          simp only [scan, if_neg helig, htr, if_pos hlim]
        · have hneed : ¬(limit - total ≤ 1) := by omega
          have hstep : limit - total - 1 = limit - (total + 1) := by omega
          have hcut : cut q it ie (limit - total) (e :: rest)
              = cut q it ie (limit - (total + 1)) rest + 1 := by
            simp [cut, he, hp, hneed, hstep, Nat.add_comm]
          rw [hcut, List.take_succ_cons, bucketsOf_cons_match q it ie e _ t he hp,
            ← Buckets.app_assoc, Buckets.app_single]
          simp only [scan, if_neg helig, htr, if_neg hlim]
          exact ih (b.add t e.card) (total + 1) (by omega)
/-- The else-if chain assigns exactly the first tier whose raw condition
holds: `tier_of` returns `some t` iff tier `t` matches and no
earlier-ranked tier does. -/
theorem tier_of_eq_some_iff (q : String) (it : Bool) (e : IndexEntry) (t : Tier) :
    tier_of q it e = some t ↔
      tierMatch q it e t ∧ ∀ t' : Tier, tierIdx t' < tierIdx t → ¬ tierMatch q it e t' := by
  unfold tier_of
  split_ifs with h1 h2 h3 h4 h5 h6
  · constructor
    · intro heq
      cases heq
      refine ⟨h1, ?_⟩
      intro t' ht'
      cases t' with
      | exact => exact absurd ht' (by decide)
      | pfx => exact absurd ht' (by decide)
      | sub => exact absurd ht' (by decide)
      | icontains => exact absurd ht' (by decide)
      | itraits => exact absurd ht' (by decide)
      | itext => exact absurd ht' (by decide)
    · rintro ⟨hm, hall⟩
      cases t with
      | exact => rfl
      | pfx => exact absurd h1 (hall .exact (by decide))
      | sub => exact absurd h1 (hall .exact (by decide))
      | icontains => exact absurd h1 (hall .exact (by decide))
      | itraits => exact absurd h1 (hall .exact (by decide))
      | itext => exact absurd h1 (hall .exact (by decide))
  · constructor
    · intro heq
      cases heq
      refine ⟨h2, ?_⟩
      intro t' ht'
      cases t' with
      | exact => exact h1
      | pfx => exact absurd ht' (by decide)
      | sub => exact absurd ht' (by decide)
      | icontains => exact absurd ht' (by decide)
      | itraits => exact absurd ht' (by decide)
      | itext => exact absurd ht' (by decide)
    · rintro ⟨hm, hall⟩
      cases t with
      | exact => exact absurd hm h1
      | pfx => rfl
      | sub => exact absurd h2 (hall .pfx (by decide))
      | icontains => exact absurd h2 (hall .pfx (by decide))
      | itraits => exact absurd h2 (hall .pfx (by decide))
      | itext => exact absurd h2 (hall .pfx (by decide))
  · constructor
    · intro heq
      cases heq
      refine ⟨h3, ?_⟩
      intro t' ht'
      cases t' with
      | exact => exact h1
      | pfx => exact h2
      | sub => exact absurd ht' (by decide)
      | icontains => exact absurd ht' (by decide)
      | itraits => exact absurd ht' (by decide)
      | itext => exact absurd ht' (by decide)
    · rintro ⟨hm, hall⟩
      cases t with
      | exact => exact absurd hm h1
      | pfx => exact absurd hm h2
      | sub => rfl
      | icontains => exact absurd h3 (hall .sub (by decide))
      | itraits => exact absurd h3 (hall .sub (by decide))
      | itext => exact absurd h3 (hall .sub (by decide))
  · constructor
    · intro heq
      cases heq
      refine ⟨h4, ?_⟩
      intro t' ht'
      cases t' with
      | exact => exact h1
      | pfx => exact h2
      | sub => exact h3
      | icontains => exact absurd ht' (by decide)
      | itraits => exact absurd ht' (by decide)
      | itext => exact absurd ht' (by decide)
    · rintro ⟨hm, hall⟩
      cases t with
      | exact => exact absurd hm h1
      | pfx => exact absurd hm h2
      | sub => exact absurd hm h3
      | icontains => rfl
      | itraits => exact absurd h4 (hall .icontains (by decide))
      | itext => exact absurd h4 (hall .icontains (by decide))
  · constructor
    · intro heq
      cases heq
      refine ⟨h5, ?_⟩
      intro t' ht'
      cases t' with
      | exact => exact h1
      | pfx => exact h2
      | sub => exact h3
      | icontains => exact h4
      | itraits => exact absurd ht' (by decide)
      | itext => exact absurd ht' (by decide)
    · rintro ⟨hm, hall⟩
      cases t with
      | exact => exact absurd hm h1
      | pfx => exact absurd hm h2
      | sub => exact absurd hm h3
      | icontains => exact absurd hm h4
      | itraits => rfl
      | itext => exact absurd h5 (hall .itraits (by decide))
  · constructor
    · intro heq
      cases heq
      refine ⟨h6, ?_⟩
      intro t' ht'
      cases t' with
      | exact => exact h1
      | pfx => exact h2
      | sub => exact h3
      | icontains => exact h4
      | itraits => exact h5
      | itext => exact absurd ht' (by decide)
    · rintro ⟨hm, hall⟩
      cases t with
      | exact => exact absurd hm h1
      | pfx => exact absurd hm h2
      | sub => exact absurd hm h3
      | icontains => exact absurd hm h4
      | itraits => exact absurd hm h5
      | itext => rfl
  · constructor
    · intro heq
      exact absurd heq (by simp)
    · rintro ⟨hm, hall⟩
      cases t with
      | exact => exact absurd hm h1
      | pfx => exact absurd hm h2
      | sub => exact absurd hm h3
      | icontains => exact absurd hm h4
      | itraits => exact absurd hm h5
      | itext => exact absurd hm h6
/-- The effective limit is positive whenever the index is non-empty. -/
theorem effLimit_pos (index : List IndexEntry) (limit : Option Int) (h : index ≠ []) :
    0 < effLimit index limit := by
  unfold effLimit
  cases limit with
  | none => exact List.length_pos.mpr h
  | some l =>
    show 0 < if l ≤ 0 then index.length else l.toNat
    by_cases hl : l ≤ 0
    · rw [if_pos hl]
      exact List.length_pos.mpr h
    · rw [if_neg hl]
      omega

/-- A scan started at total 0 below its limit yields the buckets of the
prefix it consumes. -/
theorem scan_from_zero (q : String) (it ie : Bool) (lim : Nat) (index : List IndexEntry)
    (h : 0 < lim) :
    scan q it ie lim index Buckets.empty 0
      = bucketsOf q it ie (index.take (cut q it ie lim index)) := by
  have hc := scan_closed q it ie lim index Buckets.empty 0 h
  simpa [Buckets.empty_app] using hc

/-- `search_cards` over a published index, closed form: the concatenated
scan buckets, truncated to the effective limit. -/
theorem search_cards_loaded_closed (index : List IndexEntry) (q : String) (limit : Option Int)
    (ie : Bool) (hq : pyLower (pyStrip q) ≠ "") :
    search_cards_loaded index q limit ie
      = (if effLimit index limit <
            ((scan (pyLower (pyStrip q)) (decide (3 ≤ (pyLower (pyStrip q)).length)) ie
              (effLimit index limit) index Buckets.empty 0).combined).length
         then ((scan (pyLower (pyStrip q)) (decide (3 ≤ (pyLower (pyStrip q)).length)) ie
              (effLimit index limit) index Buckets.empty 0).combined).take (effLimit index limit)
         else (scan (pyLower (pyStrip q)) (decide (3 ≤ (pyLower (pyStrip q)).length)) ie
              (effLimit index limit) index Buckets.empty 0).combined) := by
  by_cases hidx : index = []
  · subst hidx
    simp [search_cards_loaded, scan, Buckets.combined, Buckets.empty]
  · have hne : effLimit index limit ≠ 0 := Nat.pos_iff_ne_zero.mp (effLimit_pos index limit hidx)
    simp only [search_cards_loaded, if_neg hidx, if_neg hq]
    simp [hne]

/-- C4: for a loaded index, a query that normalizes non-empty, and a
positive limit: the result never exceeds the limit; every card placed in a
bucket comes from an index entry that matches that tier and no
earlier-ranked tier (the else-if chain assigns at most the first matching
tier); and the returned list is exactly the six tier buckets concatenated
in tier order and truncated to the limit. -/
theorem search_tier_assignment (index : List IndexEntry) (q : String) (l : Int) (ie : Bool)
    (hq : pyLower (pyStrip q) ≠ "") (hl : 0 < l) :
    (search_cards_loaded index q (some l) ie).length ≤ l.toNat ∧
    (∀ t : Tier, ∀ c : Card,
      c ∈ (scan (pyLower (pyStrip q)) (decide (3 ≤ (pyLower (pyStrip q)).length)) ie
          (effLimit index (some l)) index Buckets.empty 0).bucket t →
      ∃ e, e ∈ index ∧ e.card = c ∧
        tierMatch (pyLower (pyStrip q)) (decide (3 ≤ (pyLower (pyStrip q)).length)) e t ∧
        ∀ t' : Tier, tierIdx t' < tierIdx t →
          ¬ tierMatch (pyLower (pyStrip q)) (decide (3 ≤ (pyLower (pyStrip q)).length)) e t') ∧
    search_cards_loaded index q (some l) ie
      = (if effLimit index (some l) <
            ((scan (pyLower (pyStrip q)) (decide (3 ≤ (pyLower (pyStrip q)).length)) ie
              (effLimit index (some l)) index Buckets.empty 0).combined).length
         then ((scan (pyLower (pyStrip q)) (decide (3 ≤ (pyLower (pyStrip q)).length)) ie
              (effLimit index (some l)) index Buckets.empty 0).combined).take (effLimit index (some l))
         else (scan (pyLower (pyStrip q)) (decide (3 ≤ (pyLower (pyStrip q)).length)) ie
              (effLimit index (some l)) index Buckets.empty 0).combined) := by
  have hclosed := search_cards_loaded_closed index q (some l) ie hq
  have heff : effLimit index (some l) = l.toNat := by
    show (if l ≤ 0 then index.length else l.toNat) = l.toNat
    rw [if_neg (by omega)]
  refine ⟨?_, ?_, hclosed⟩
  · rw [hclosed]
    split
    · rename_i hlt
      rw [List.length_take]
      omega
    · rename_i hlt
      omega
  · intro t c hc
    by_cases hidx : index = []
    · subst hidx
      simp only [scan] at hc
      cases t <;> simp [Buckets.bucket, Buckets.empty] at hc
    · have hpos := effLimit_pos index (some l) hidx
      rw [scan_from_zero _ _ _ _ _ hpos, bucketsOf_bucket] at hc
      unfold tierList at hc
      obtain ⟨e, he, hec⟩ := List.mem_map.mp hc
      obtain ⟨hemem, hcond⟩ := List.mem_filter.mp he
      have hemem2 : e ∈ index := List.mem_of_mem_take hemem
      simp only [Bool.and_eq_true, decide_eq_true_eq] at hcond
      obtain ⟨hm, hall⟩ := (tier_of_eq_some_iff _ _ _ _).mp hcond.2
      exact ⟨e, hemem2, hec, hm, hall⟩

/-- Witness for the C4 theorem at a concrete two-entry index with limit 1. -/
theorem search_tier_assignment_witness :
    (search_cards_loaded (build_search_index [containsRolandCard, exactRolandCard])
      "roland" (some 1) true).length ≤ (1 : Int).toNat :=
  (search_tier_assignment (build_search_index [containsRolandCard, exactRolandCard])
    "roland" 1 true (by decide) (by decide)).1
/-!  Order infrastructure for the encounter-filter claim. -/

/-- A duplicate-free list is strictly sorted by its own `indexOf`. -/
theorem pairwise_indexOf {α : Type} [DecidableEq α] (l : List α) (h : l.Nodup) :
    l.Pairwise (fun a b => l.indexOf a < l.indexOf b) := by
  induction l with
  | nil => exact List.Pairwise.nil
  | cons x xs ih =>
    rw [List.pairwise_cons]
    constructor
    · intro b hb
      have hbx : b ≠ x := fun hbx => (List.nodup_cons.mp h).1 (hbx ▸ hb)
      rw [List.indexOf_cons_self, List.indexOf_cons_ne _ (Ne.symm hbx)]
      exact Nat.succ_pos _
    · refine List.Pairwise.imp_of_mem ?_ (ih (List.nodup_cons.mp h).2)
      intro a b ha hb hab
      have hax : a ≠ x := fun h' => (List.nodup_cons.mp h).1 (h' ▸ ha)
      have hbx : b ≠ x := fun h' => (List.nodup_cons.mp h).1 (h' ▸ hb)
      rw [List.indexOf_cons_ne _ (Ne.symm hax), List.indexOf_cons_ne _ (Ne.symm hbx)]
      exact Nat.succ_lt_succ hab

/-- Under distinct cards, `entryFor` returns exactly the entry of a member. -/
theorem entryFor_eq (index : List IndexEntry) (e : IndexEntry)
    (hnd : (index.map IndexEntry.card).Nodup) (he : e ∈ index) :
    entryFor index e.card = some e := by
  unfold entryFor
  cases hfind : index.find? (fun x => decide (x.card = e.card)) with
  | none =>
    exfalso
    have := List.find?_eq_none.mp hfind e he
    simp at this
  | some e2 =>
    have h1 := List.find?_some hfind
    have h2 := List.mem_of_find?_eq_some hfind
    simp only [decide_eq_true_eq] at h1
    rw [List.inj_on_of_nodup_map hnd h2 he h1]

/-- Under distinct cards, the tier rank of a member entry card is the
index of its classified tier. -/
theorem tierRank_of_mem (qn : String) (it : Bool) (index : List IndexEntry)
    (hnd : (index.map IndexEntry.card).Nodup) (e : IndexEntry) (he : e ∈ index)
    (t : Tier) (ht : tier_of qn it e = some t) :
    tierRank qn it index e.card = tierIdx t := by
  unfold tierRank
  rw [entryFor_eq index e hnd he]
  show (match tier_of qn it e with | some t => tierIdx t | none => 6) = tierIdx t
  rw [ht]

/-- Membership in a tier list names the witnessing admitted entry. -/
theorem mem_tierList_inv (qn : String) (it ie : Bool) (t : Tier) (l : List IndexEntry)
    (c : Card) (h : c ∈ tierList qn it ie t l) :
    ∃ e, e ∈ l ∧ e.card = c ∧ eligB ie e = true ∧ tier_of qn it e = some t := by
  unfold tierList at h
  obtain ⟨e, he, hec⟩ := List.mem_map.mp h
  obtain ⟨hm, hcond⟩ := List.mem_filter.mp he
  simp only [Bool.and_eq_true, decide_eq_true_eq] at hcond
  exact ⟨e, hm, hec, hcond.1, hcond.2⟩

/-- A card of the concatenated buckets lies in one of the six buckets. -/
theorem mem_combined_inv (b : Buckets) (c : Card) (h : c ∈ b.combined) :
    ∃ t : Tier, c ∈ b.bucket t := by
  unfold Buckets.combined at h
  rcases List.mem_append.mp h with h | h
  · rcases List.mem_append.mp h with h | h
    · rcases List.mem_append.mp h with h | h
      · rcases List.mem_append.mp h with h | h
        · rcases List.mem_append.mp h with h | h
          · exact ⟨.exact, h⟩
          · exact ⟨.pfx, h⟩
        · exact ⟨.sub, h⟩
      · exact ⟨.icontains, h⟩
    · exact ⟨.itraits, h⟩
  · exact ⟨.itext, h⟩

/-- Tier lists over a sublist of the index are sublists of the index card
sequence. -/
theorem tierList_sublist (qn : String) (it ie : Bool) (t : Tier)
    (P index : List IndexEntry) (hP : List.Sublist P index) :
    List.Sublist (tierList qn it ie t P) (index.map IndexEntry.card) :=
  ((List.filter_sublist P).trans hP).map IndexEntry.card

/-- Tier lists are strictly sorted by index position. -/
theorem tierList_pairwise_pos (qn : String) (it ie : Bool) (t : Tier)
    (P index : List IndexEntry) (hP : List.Sublist P index)
    (hnd : (index.map IndexEntry.card).Nodup) :
    (tierList qn it ie t P).Pairwise (fun a b => posOf index a < posOf index b) :=
  (pairwise_indexOf (index.map IndexEntry.card) hnd).sublist
    (tierList_sublist qn it ie t P index hP)

/-- Tier lists are strictly sorted by the match key. -/
theorem tierList_pairwise_key (qn : String) (it ie : Bool) (t : Tier)
    (P index : List IndexEntry) (hP : List.Sublist P index)
    (hnd : (index.map IndexEntry.card).Nodup) :
    (tierList qn it ie t P).Pairwise
      (fun a b => keyOf qn it index a < keyOf qn it index b) := by
  refine List.Pairwise.imp_of_mem ?_ (tierList_pairwise_pos qn it ie t P index hP hnd)
  intro a b ha hb hab
  obtain ⟨e1, he1P, he1c, _, ht1⟩ := mem_tierList_inv qn it ie t P a ha
  obtain ⟨e2, he2P, he2c, _, ht2⟩ := mem_tierList_inv qn it ie t P b hb
  have hr1 : tierRank qn it index a = tierIdx t :=
    he1c ▸ tierRank_of_mem qn it index hnd e1 (hP.subset he1P) t ht1
  have hr2 : tierRank qn it index b = tierIdx t :=
    he2c ▸ tierRank_of_mem qn it index hnd e2 (hP.subset he2P) t ht2
  unfold keyOf
  rw [hr1, hr2]
  omega

/-- A card of an earlier-ranked tier list keys strictly below every card of
a later-ranked one. -/
theorem tierList_key_lt_cross (qn : String) (it ie : Bool) (t t2 : Tier)
    (P index : List IndexEntry) (hP : List.Sublist P index)
    (hnd : (index.map IndexEntry.card).Nodup) (htt : tierIdx t < tierIdx t2) :
    ∀ a ∈ tierList qn it ie t P, ∀ b ∈ tierList qn it ie t2 P,
      keyOf qn it index a < keyOf qn it index b := by
  intro a ha b hb
  obtain ⟨e1, he1P, he1c, _, ht1⟩ := mem_tierList_inv qn it ie t P a ha
  obtain ⟨e2, he2P, he2c, _, ht2⟩ := mem_tierList_inv qn it ie t2 P b hb
  have hr1 : tierRank qn it index a = tierIdx t :=
    he1c ▸ tierRank_of_mem qn it index hnd e1 (hP.subset he1P) t ht1
  have hr2 : tierRank qn it index b = tierIdx t2 :=
    he2c ▸ tierRank_of_mem qn it index hnd e2 (hP.subset he2P) t2 ht2
  have hpa : posOf index a < index.length := by
    have hmem : a ∈ index.map IndexEntry.card :=
      ((tierList_sublist qn it ie t P index hP).subset) ha
    have := List.indexOf_lt_length.mpr hmem
    simpa [posOf] using this
  unfold keyOf
  rw [hr1, hr2]
  have h1 : tierIdx t + 1 ≤ tierIdx t2 := htt
  calc tierIdx t * (index.length + 1) + posOf index a
      < tierIdx t * (index.length + 1) + (index.length + 1) := by omega
    _ = (tierIdx t + 1) * (index.length + 1) := by ring
    _ ≤ tierIdx t2 * (index.length + 1) := Nat.mul_le_mul_right _ h1
    _ ≤ tierIdx t2 * (index.length + 1) + posOf index b := Nat.le_add_right _ _
/-- The concatenated scan buckets over a prefix are strictly sorted by the
match key (tier rank, then index position). -/
theorem bucketsOf_combined_pairwise (qn : String) (it ie : Bool)
    (P index : List IndexEntry) (hP : List.Sublist P index)
    (hnd : (index.map IndexEntry.card).Nodup) :
    ((bucketsOf qn it ie P).combined).Pairwise
      (fun a b => keyOf qn it index a < keyOf qn it index b) := by
  have h1 := tierList_pairwise_key qn it ie .exact P index hP hnd
  have h2 := tierList_pairwise_key qn it ie .pfx P index hP hnd
  have h3 := tierList_pairwise_key qn it ie .sub P index hP hnd
  have h4 := tierList_pairwise_key qn it ie .icontains P index hP hnd
  have h5 := tierList_pairwise_key qn it ie .itraits P index hP hnd
  have h6 := tierList_pairwise_key qn it ie .itext P index hP hnd
  have cross := fun t t2 htt => tierList_key_lt_cross qn it ie t t2 P index hP hnd htt
  have p56 : ((tierList qn it ie .itraits P) ++ (tierList qn it ie .itext P)).Pairwise
      (fun a b => keyOf qn it index a < keyOf qn it index b) :=
    List.pairwise_append.mpr ⟨h5, h6, cross .itraits .itext (by decide)⟩
  have p456 : ((tierList qn it ie .icontains P) ++ ((tierList qn it ie .itraits P)
      ++ (tierList qn it ie .itext P))).Pairwise
      (fun a b => keyOf qn it index a < keyOf qn it index b) := by
    refine List.pairwise_append.mpr ⟨h4, p56, ?_⟩
    intro a ha b hb
    rcases List.mem_append.mp hb with hb | hb
    · exact cross .icontains .itraits (by decide) a ha b hb
    · exact cross .icontains .itext (by decide) a ha b hb
  have p3456 : ((tierList qn it ie .sub P) ++ ((tierList qn it ie .icontains P)
      ++ ((tierList qn it ie .itraits P) ++ (tierList qn it ie .itext P)))).Pairwise
      (fun a b => keyOf qn it index a < keyOf qn it index b) := by
    refine List.pairwise_append.mpr ⟨h3, p456, ?_⟩
    intro a ha b hb
    rcases List.mem_append.mp hb with hb | hb
    · exact cross .sub .icontains (by decide) a ha b hb
    · rcases List.mem_append.mp hb with hb | hb
      · exact cross .sub .itraits (by decide) a ha b hb
      · exact cross .sub .itext (by decide) a ha b hb
  have p23456 : ((tierList qn it ie .pfx P) ++ ((tierList qn it ie .sub P)
      ++ ((tierList qn it ie .icontains P) ++ ((tierList qn it ie .itraits P)
      ++ (tierList qn it ie .itext P))))).Pairwise
      (fun a b => keyOf qn it index a < keyOf qn it index b) := by
    refine List.pairwise_append.mpr ⟨h2, p3456, ?_⟩
    intro a ha b hb
    rcases List.mem_append.mp hb with hb | hb
    · exact cross .pfx .sub (by decide) a ha b hb
    · rcases List.mem_append.mp hb with hb | hb
      · exact cross .pfx .icontains (by decide) a ha b hb
      · rcases List.mem_append.mp hb with hb | hb
        · exact cross .pfx .itraits (by decide) a ha b hb
        · exact cross .pfx .itext (by decide) a ha b hb
  have pall : ((tierList qn it ie .exact P) ++ ((tierList qn it ie .pfx P)
      ++ ((tierList qn it ie .sub P) ++ ((tierList qn it ie .icontains P)
      ++ ((tierList qn it ie .itraits P) ++ (tierList qn it ie .itext P)))))).Pairwise
      (fun a b => keyOf qn it index a < keyOf qn it index b) := by
    refine List.pairwise_append.mpr ⟨h1, p23456, ?_⟩
    intro a ha b hb
    rcases List.mem_append.mp hb with hb | hb
    · exact cross .exact .pfx (by decide) a ha b hb
    · rcases List.mem_append.mp hb with hb | hb
      · exact cross .exact .sub (by decide) a ha b hb
      · rcases List.mem_append.mp hb with hb | hb
        · exact cross .exact .icontains (by decide) a ha b hb
        · rcases List.mem_append.mp hb with hb | hb
          · exact cross .exact .itraits (by decide) a ha b hb
          · exact cross .exact .itext (by decide) a ha b hb
  have hco : (bucketsOf qn it ie P).combined
      = (tierList qn it ie .exact P) ++ ((tierList qn it ie .pfx P)
      ++ ((tierList qn it ie .sub P) ++ ((tierList qn it ie .icontains P)
      ++ ((tierList qn it ie .itraits P) ++ (tierList qn it ie .itext P))))) := by
    simp [Buckets.combined, bucketsOf, List.append_assoc]
  rw [hco]
  exact pall

/-- Every search result is strictly sorted by the match key. -/
theorem result_pairwise_key (index : List IndexEntry) (q : String) (limit : Option Int)
    (ie : Bool) (hnd : (index.map IndexEntry.card).Nodup) :
    (search_cards_loaded index q limit ie).Pairwise
      (fun a b => keyOf (pyLower (pyStrip q)) (decide (3 ≤ (pyLower (pyStrip q)).length)) index a
        < keyOf (pyLower (pyStrip q)) (decide (3 ≤ (pyLower (pyStrip q)).length)) index b) := by
  by_cases hidx : index = []
  · simp [search_cards_loaded, hidx]
  · by_cases hq : pyLower (pyStrip q) = ""
    · simp [search_cards_loaded, hidx, hq]
    · rw [search_cards_loaded_closed index q limit ie hq,
        scan_from_zero _ _ _ _ _ (effLimit_pos index limit hidx)]
      have hpw := bucketsOf_combined_pairwise (pyLower (pyStrip q))
        (decide (3 ≤ (pyLower (pyStrip q)).length)) ie
        (index.take (cut (pyLower (pyStrip q)) (decide (3 ≤ (pyLower (pyStrip q)).length)) ie
          (effLimit index limit) index)) index (List.take_sublist _ _) hnd
      split
      · exact hpw.sublist (List.take_sublist _ _)
      · exact hpw

/-- In a list strictly sorted by a key, relative order is exactly key
order. -/
theorem pairwise_before_iff (l : List Card) (f : Card → Nat)
    (hp : l.Pairwise (fun a b => f a < f b)) (x y : Card) (hx : x ∈ l) (hy : y ∈ l)
    (hxy : x ≠ y) : Before l x y ↔ f x < f y := by
  constructor
  · rintro ⟨i, j, hij, hxi, hyj⟩
    obtain ⟨hi, hgi⟩ := List.get?_eq_some.mp hxi
    obtain ⟨hj, hgj⟩ := List.get?_eq_some.mp hyj
    have := List.pairwise_iff_get.mp hp ⟨i, hi⟩ ⟨j, hj⟩ hij
    rw [hgi, hgj] at this
    exact this
  · intro hf
    obtain ⟨i, hgi⟩ := List.mem_iff_get.mp hx
    obtain ⟨j, hgj⟩ := List.mem_iff_get.mp hy
    have hne : i ≠ j := by
      rintro rfl
      exact hxy (hgi ▸ hgj ▸ rfl)
    rcases lt_or_gt_of_ne hne with hij | hji
    · refine ⟨i, j, hij, ?_, ?_⟩
      · rw [List.get?_eq_get i.isLt, hgi]
      · rw [List.get?_eq_get j.isLt, hgj]
    · have := List.pairwise_iff_get.mp hp j i hji
      rw [hgi, hgj] at this
      omega
/-- The scan loop with encounter cards excluded equals the scan loop with
them included over the pre-filtered entry list: exclusion happens before
any tier check. -/
theorem scan_filter_encounter (q2 : String) (it : Bool) (L : Nat) :
    ∀ (l : List IndexEntry) (b : Buckets) (total : Nat),
      scan q2 it false L l b total
        = scan q2 it true L (l.filter (fun e => !e.is_encounter)) b total := by
  intro l
  induction l with
  | nil => intro b total; rfl
  | cons e rest ih =>
    intro b total
    cases henc : e.is_encounter with
    | true =>
      have hfe : (e :: rest).filter (fun e => !e.is_encounter)
          = rest.filter (fun e => !e.is_encounter) := by
        simp [List.filter_cons, henc]
      rw [hfe]
      simp only [scan]
      rw [if_pos (show True ∧ e.is_encounter = true from ⟨trivial, henc⟩)]
      exact ih b total
    | false =>
      have hfe : (e :: rest).filter (fun e => !e.is_encounter)
          = e :: rest.filter (fun e => !e.is_encounter) := by
        simp [List.filter_cons, henc]
      rw [hfe]
      simp only [scan]
      rw [if_neg (show ¬(True ∧ e.is_encounter = true) by simp [henc]),
        if_neg (show ¬(true = false ∧ e.is_encounter = true) by simp)]
      cases htr : tier_of_run q2 it L total e with
      | none =>
        simp only [htr]
        exact ih b total
      | some t =>
        simp only [htr]
        by_cases hlim : L ≤ total + 1
        · simp only [if_pos hlim]
        · simp only [if_neg hlim]
          exact ih (b.add t e.card) (total + 1)

/-- C8: with `includeEncounter = false`, encounter entries are skipped
before any tier check (the scan equals the scan of the pre-filtered list);
no card of the result comes from an encounter entry; and, when the index
cards are distinct, a card put in buckets by both runs lands in the same
tier in both, and two cards present in both results appear in the same
relative order in both. -/
theorem search_include_encounter (index : List IndexEntry) (q : String) (limit : Option Int) :
    (∀ (q2 : String) (it : Bool) (L : Nat) (l : List IndexEntry) (b : Buckets) (total : Nat),
      scan q2 it false L l b total
        = scan q2 it true L (l.filter (fun e => !e.is_encounter)) b total) ∧
    (∀ c ∈ search_cards_loaded index q limit false,
      ∃ e, e ∈ index ∧ e.is_encounter = false ∧ e.card = c) ∧
    ((index.map IndexEntry.card).Nodup →
      (∀ t t2 : Tier, ∀ c : Card,
        c ∈ (scan (pyLower (pyStrip q)) (decide (3 ≤ (pyLower (pyStrip q)).length)) false
            (effLimit index limit) index Buckets.empty 0).bucket t →
        c ∈ (scan (pyLower (pyStrip q)) (decide (3 ≤ (pyLower (pyStrip q)).length)) true
            (effLimit index limit) index Buckets.empty 0).bucket t2 → t = t2) ∧
      (∀ c d : Card, c ≠ d →
        c ∈ search_cards_loaded index q limit false →
        d ∈ search_cards_loaded index q limit false →
        c ∈ search_cards_loaded index q limit true →
        d ∈ search_cards_loaded index q limit true →
        (Before (search_cards_loaded index q limit false) c d ↔
          Before (search_cards_loaded index q limit true) c d))) := by
  refine ⟨scan_filter_encounter, ?_, ?_⟩
  · intro c hc
    by_cases hidx : index = []
    · simp [search_cards_loaded, hidx] at hc
    · by_cases hq : pyLower (pyStrip q) = ""
      · simp [search_cards_loaded, hidx, hq] at hc
      · rw [search_cards_loaded_closed index q limit false hq,
          scan_from_zero _ _ _ _ _ (effLimit_pos index limit hidx)] at hc
        have hc2 : c ∈ (bucketsOf (pyLower (pyStrip q))
            (decide (3 ≤ (pyLower (pyStrip q)).length)) false
            (index.take (cut (pyLower (pyStrip q))
              (decide (3 ≤ (pyLower (pyStrip q)).length)) false
              (effLimit index limit) index))).combined := by
          split at hc
          · exact List.mem_of_mem_take hc
          · exact hc
        obtain ⟨t, hct⟩ := mem_combined_inv _ _ hc2
        rw [bucketsOf_bucket] at hct
        obtain ⟨e, heP, hec, helig, _⟩ := mem_tierList_inv _ _ _ _ _ _ hct
        have henc : e.is_encounter = false := by simpa [eligB] using helig
        exact ⟨e, List.mem_of_mem_take heP, henc, hec⟩
  · intro hnd
    constructor
    · intro t t2 c h1 h2
      by_cases hidx : index = []
      · rw [hidx] at h1
        simp only [scan] at h1
        cases t <;> simp [Buckets.bucket, Buckets.empty] at h1
      · have hpos := effLimit_pos index limit hidx
        rw [scan_from_zero _ _ _ _ _ hpos, bucketsOf_bucket] at h1 h2
        obtain ⟨e1, he1, hc1, _, ht1⟩ := mem_tierList_inv _ _ _ _ _ _ h1
        obtain ⟨e2, he2, hc2, _, ht2⟩ := mem_tierList_inv _ _ _ _ _ _ h2
        have he1b : e1 ∈ index := List.mem_of_mem_take he1
        have he2b : e2 ∈ index := List.mem_of_mem_take he2
        have heq : e1 = e2 :=
          List.inj_on_of_nodup_map hnd he1b he2b (by rw [hc1, hc2])
        subst heq
        rw [ht1] at ht2
        exact Option.some_inj.mp ht2
    · intro c d hcd h1c h1d h2c h2d
      rw [pairwise_before_iff _ _ (result_pairwise_key index q limit false hnd) c d h1c h1d hcd,
        pairwise_before_iff _ _ (result_pairwise_key index q limit true hnd) c d h2c h2d hcd]

/-- Witness for the C8 theorem: a concrete index with one encounter and two
player cards, where both runs return the two player cards and keep their
order. -/
theorem search_include_encounter_witness :
    Before (search_cards_loaded (build_search_index [encounterCard, rolandCard, textRolandCard])
        "roland" none false) rolandCard textRolandCard ↔
      Before (search_cards_loaded (build_search_index [encounterCard, rolandCard, textRolandCard])
        "roland" none true) rolandCard textRolandCard :=
  ((search_include_encounter (build_search_index [encounterCard, rolandCard, textRolandCard])
      "roland" none).2.2 (by decide)).2 rolandCard textRolandCard (by decide)
    (by decide) (by decide) (by decide) (by decide)
/-!  The single-loader invariant over all interleavings. -/

/-- Reading another caller's program point after an update. -/
theorem setPC_pc (s : Sys) (i : Nat) (v : PC) (j : Nat) :
    (setPC s i v).pc j = if j = i then v else s.pc j := by
  unfold setPC
  by_cases h : j = i
  · subst h
    simp [Function.update_same]
  · simp [Function.update_noteq h, h]

/-- The invariant holds at process start. -/
theorem sysInv_init : SysInv initSys := by
  refine ⟨?_, ?_, ?_⟩
  · intro i h
    simp [initSys, PC.inR] at h
  · intro i j hi _
    simp [initSys, PC.inR] at hi
  · intro h
    simp [initSys] at h

/-- Every step of every caller preserves the invariant. -/
theorem sysInv_step (i : Nat) (s s2 : Sys) (hstep : StepBy i s s2) (hinv : SysInv s) :
    SysInv s2 := by
  obtain ⟨inv1, inv2, inv3⟩ := hinv
  cases hstep with
  | fast_hit cs hpc hc =>
    refine ⟨?_, ?_, ?_⟩
    · intro j hj
      rw [setPC_pc] at hj
      split at hj
      · simp [PC.inR] at hj
      · exact inv1 j hj
    · intro j k hj hk
      rw [setPC_pc] at hj hk
      split at hj
      · simp [PC.inR] at hj
      · split at hk
        · simp [PC.inR] at hk
        · exact inv2 j k hj hk
    · intro hl
      obtain ⟨j, hj⟩ := inv3 hl
      refine ⟨j, ?_⟩
      rw [setPC_pc]
      split
      · rename_i hji
        rw [hji, hpc] at hj
        simp [PC.inR] at hj
      · exact hj
  | fast_miss hpc hc =>
    refine ⟨?_, ?_, ?_⟩
    · intro j hj
      rw [setPC_pc] at hj
      split at hj
      · simp [PC.inR] at hj
      · exact inv1 j hj
    · intro j k hj hk
      rw [setPC_pc] at hj hk
      split at hj
      · simp [PC.inR] at hj
      · split at hk
        · simp [PC.inR] at hk
        · exact inv2 j k hj hk
    · intro hl
      obtain ⟨j, hj⟩ := inv3 hl
      refine ⟨j, ?_⟩
      rw [setPC_pc]
      split
      · rename_i hji
        rw [hji, hpc] at hj
        simp [PC.inR] at hj
      · exact hj
  | acquire hpc howner =>
    refine ⟨?_, ?_, ?_⟩
    · intro j hj
      rw [setPC_pc] at hj
      split at hj
      · simp [PC.inR] at hj
      · exact inv1 j hj
    · intro j k hj hk
      rw [setPC_pc] at hj hk
      split at hj
      · simp [PC.inR] at hj
      · split at hk
        · simp [PC.inR] at hk
        · exact inv2 j k hj hk
    · intro hl
      obtain ⟨j, hj⟩ := inv3 hl
      refine ⟨j, ?_⟩
      rw [setPC_pc]
      split
      · rename_i hji
        rw [hji, hpc] at hj
        simp [PC.inR] at hj
      · exact hj
  | held_pop cs hpc hc =>
    refine ⟨?_, ?_, ?_⟩
    · intro j hj
      rw [setPC_pc] at hj
      split at hj
      · simp [PC.inR] at hj
      · exact inv1 j hj
    · intro j k hj hk
      rw [setPC_pc] at hj hk
      split at hj
      · simp [PC.inR] at hj
      · split at hk
        · simp [PC.inR] at hk
        · exact inv2 j k hj hk
    · intro hl
      obtain ⟨j, hj⟩ := inv3 hl
      refine ⟨j, ?_⟩
      rw [setPC_pc]
      split
      · rename_i hji
        rw [hji, hpc] at hj
        simp [PC.inR] at hj
      · exact hj
  | held_busy hpc hc hl =>
    refine ⟨?_, ?_, ?_⟩
    · intro j hj
      rw [setPC_pc] at hj
      split at hj
      · simp [PC.inR] at hj
      · exact inv1 j hj
    · intro j k hj hk
      rw [setPC_pc] at hj hk
      split at hj
      · simp [PC.inR] at hj
      · split at hk
        · simp [PC.inR] at hk
        · exact inv2 j k hj hk
    · intro hl2
      obtain ⟨j, hj⟩ := inv3 hl2
      refine ⟨j, ?_⟩
      rw [setPC_pc]
      split
      · rename_i hji
        rw [hji, hpc] at hj
        simp [PC.inR] at hj
      · exact hj
  | held_claim hpc hc hl =>
    refine ⟨?_, ?_, ?_⟩
    · intro j _
      rfl
    · intro j k hj hk
      rw [setPC_pc] at hj hk
      split at hj
      · split at hk
        · rename_i h1 h2
          rw [h1, h2]
        · rename_i h1 h2
          exact absurd (inv1 k hk) (by rw [hl]; simp)
      · exact absurd (inv1 j hj) (by rw [hl]; simp)
    · intro _
      refine ⟨i, ?_⟩
      rw [setPC_pc]
      simp [PC.inR]
  | load_fail hpc =>
    have hload := inv1 i (by rw [hpc]; rfl)
    refine ⟨?_, ?_, ?_⟩
    · intro j hj
      rw [setPC_pc] at hj
      split at hj
      · exact hload
      · exact inv1 j hj
    · intro j k hj hk
      rw [setPC_pc] at hj hk
      split at hj
      · split at hk
        · rename_i h1 h2
          rw [h1, h2]
        · rename_i h1 h2
          exact absurd (inv2 k i hk (by rw [hpc]; rfl)) h2
      · split at hk
        · rename_i h1 h2
          rw [h2]
          exact inv2 j i hj (by rw [hpc]; rfl)
        · exact inv2 j k hj hk
    · intro _
      refine ⟨i, ?_⟩
      rw [setPC_pc]
      simp [PC.inR]
  | load_ok cs hpc =>
    have hload := inv1 i (by rw [hpc]; rfl)
    refine ⟨?_, ?_, ?_⟩
    · intro j hj
      rw [setPC_pc] at hj
      split at hj
      · exact hload
      · exact inv1 j hj
    · intro j k hj hk
      rw [setPC_pc] at hj hk
      split at hj
      · split at hk
        · rename_i h1 h2
          rw [h1, h2]
        · rename_i h1 h2
          exact absurd (inv2 k i hk (by rw [hpc]; rfl)) h2
      · split at hk
        · rename_i h1 h2
          rw [h2]
          exact inv2 j i hj (by rw [hpc]; rfl)
        · exact inv2 j k hj hk
    · intro _
      refine ⟨i, ?_⟩
      rw [setPC_pc]
      simp [PC.inR]
  | pub_acquire cs hpc howner =>
    have hload := inv1 i (by rw [hpc]; rfl)
    refine ⟨?_, ?_, ?_⟩
    · intro j hj
      rw [setPC_pc] at hj
      split at hj
      · exact hload
      · exact inv1 j hj
    · intro j k hj hk
      rw [setPC_pc] at hj hk
      split at hj
      · split at hk
        · rename_i h1 h2
          rw [h1, h2]
        · rename_i h1 h2
          exact absurd (inv2 k i hk (by rw [hpc]; rfl)) h2
      · split at hk
        · rename_i h1 h2
          rw [h2]
          exact inv2 j i hj (by rw [hpc]; rfl)
        · exact inv2 j k hj hk
    · intro _
      refine ⟨i, ?_⟩
      rw [setPC_pc]
      simp [PC.inR]
  | publish cs hpc =>
    have hload := inv1 i (by rw [hpc]; rfl)
    refine ⟨?_, ?_, ?_⟩
    · intro j hj
      rw [setPC_pc] at hj
      split at hj
      · exact hload
      · exact inv1 j hj
    · intro j k hj hk
      rw [setPC_pc] at hj hk
      split at hj
      · split at hk
        · rename_i h1 h2
          rw [h1, h2]
        · rename_i h1 h2
          exact absurd (inv2 k i hk (by rw [hpc]; rfl)) h2
      · split at hk
        · rename_i h1 h2
          rw [h2]
          exact inv2 j i hj (by rw [hpc]; rfl)
        · exact inv2 j k hj hk
    · intro _
      refine ⟨i, ?_⟩
      rw [setPC_pc]
      simp [PC.inR]
  | fin_acquire b hpc howner =>
    have hload := inv1 i (by rw [hpc]; rfl)
    refine ⟨?_, ?_, ?_⟩
    · intro j hj
      rw [setPC_pc] at hj
      split at hj
      · exact hload
      · exact inv1 j hj
    · intro j k hj hk
      rw [setPC_pc] at hj hk
      split at hj
      · split at hk
        · rename_i h1 h2
          rw [h1, h2]
        · rename_i h1 h2
          exact absurd (inv2 k i hk (by rw [hpc]; rfl)) h2
      · split at hk
        · rename_i h1 h2
          rw [h2]
          exact inv2 j i hj (by rw [hpc]; rfl)
        · exact inv2 j k hj hk
    · intro _
      refine ⟨i, ?_⟩
      rw [setPC_pc]
      simp [PC.inR]
  | fin_clear b hpc =>
    refine ⟨?_, ?_, ?_⟩
    · intro j hj
      rw [setPC_pc] at hj
      split at hj
      · simp [PC.inR] at hj
      · rename_i hji
        have := inv2 j i hj (by rw [hpc]; rfl)
        exact absurd this hji
    · intro j k hj hk
      rw [setPC_pc] at hj hk
      split at hj
      · simp [PC.inR] at hj
      · rename_i hji
        exact absurd (inv2 j i hj (by rw [hpc]; rfl)) hji
    · intro hl
      simp at hl
/-- Program points after an update with an owner change. -/
theorem updOwner_pc (s : Sys) (i : Nat) (v : PC) (o : Option Nat) (j : Nat) :
    ({ setPC s i v with owner := o }).pc j = if j = i then v else s.pc j :=
  setPC_pc s i v j

/-- Program points after an update with owner and loading changes. -/
theorem updOwnerLoading_pc (s : Sys) (i : Nat) (v : PC) (o : Option Nat) (l : Bool) (j : Nat) :
    ({ setPC s i v with owner := o, loading := l }).pc j = if j = i then v else s.pc j :=
  setPC_pc s i v j

/-- Program points after an update with owner and cache changes. -/
theorem updOwnerCache_pc (s : Sys) (i : Nat) (v : PC) (o : Option Nat)
    (c : Option (List Card)) (j : Nat) :
    ({ setPC s i v with owner := o, cache := c }).pc j = if j = i then v else s.pc j :=
  setPC_pc s i v j

/-- The invariant holds in every reachable state. -/
theorem sysInv_reachable (s : Sys) (h : Reachable s) : SysInv s := by
  induction h with
  | refl => exact sysInv_init
  | tail _ hstep ih =>
    obtain ⟨i, hstepi⟩ := hstep
    exact sysInv_step i _ _ hstepi ih

/-- C1: in every reachable state of the interleaved system, at most one
caller is between setting and clearing the loading flag (at most one
Catalog Loader run is in flight); the flag is set exactly while such a
caller exists; while a loader run is in flight, any *other* caller that
completes returns `True` with the store populated or `False` with the
loading flag set; and only the in-flight loader can move the shared store
out of Empty. -/
theorem ensure_single_loader (s : Sys) (hr : Reachable s) :
    (∀ i j, (s.pc i).inR = true → (s.pc j).inR = true → i = j) ∧
    (∀ i, (s.pc i).inR = true → s.loading = true) ∧
    (s.loading = true → ∃ i, (s.pc i).inR = true) ∧
    (∀ i j : Nat, ∀ s2 : Sys, ∀ b : Bool, i ≠ j → (s.pc j).inR = true →
      StepBy i s s2 → s2.pc i = PC.done b →
      (b = true ∧ s.cache.isSome = true) ∨ (b = false ∧ s.loading = true)) ∧
    (∀ i : Nat, ∀ s2 : Sys, StepBy i s s2 → s.cache = none → s2.cache ≠ none →
      (s.pc i).inR = true) := by
  obtain ⟨inv1, inv2, inv3⟩ := sysInv_reachable s hr
  refine ⟨inv2, inv1, inv3, ?_, ?_⟩
  · intro i j s2 b hij hj hstep hdone
    cases hstep with
    | fast_hit cs hpc hc =>
      rw [setPC_pc, if_pos rfl] at hdone
      injection hdone with hb
      exact Or.inl ⟨hb.symm, by rw [hc]; rfl⟩
    | fast_miss hpc hc =>
      rw [setPC_pc, if_pos rfl] at hdone
      exact absurd hdone (by simp)
    | acquire hpc howner =>
      rw [updOwner_pc, if_pos rfl] at hdone
      exact absurd hdone (by simp)
    | held_pop cs hpc hc =>
      rw [updOwner_pc, if_pos rfl] at hdone
      injection hdone with hb
      exact Or.inl ⟨hb.symm, by rw [hc]; rfl⟩
    | held_busy hpc hc hl =>
      rw [updOwner_pc, if_pos rfl] at hdone
      injection hdone with hb
      exact Or.inr ⟨hb.symm, hl⟩
    | held_claim hpc hc hl =>
      rw [updOwnerLoading_pc, if_pos rfl] at hdone
      exact absurd hdone (by simp)
    | load_fail hpc =>
      rw [setPC_pc, if_pos rfl] at hdone
      exact absurd hdone (by simp)
    | load_ok cs hpc =>
      rw [setPC_pc, if_pos rfl] at hdone
      exact absurd hdone (by simp)
    | pub_acquire cs hpc howner =>
      rw [updOwner_pc, if_pos rfl] at hdone
      exact absurd hdone (by simp)
    | publish cs hpc =>
      rw [updOwnerCache_pc, if_pos rfl] at hdone
      exact absurd hdone (by simp)
    | fin_acquire b2 hpc howner =>
      rw [updOwner_pc, if_pos rfl] at hdone
      exact absurd hdone (by simp)
    | fin_clear b2 hpc =>
      exact absurd (inv2 i j (by rw [hpc]; rfl) hj) hij
  · intro i s2 hstep hc hc2
    cases hstep with
    | fast_hit cs hpc hcs => exact absurd hc hc2
    | fast_miss hpc hcs => exact absurd hc hc2
    | acquire hpc howner => exact absurd hc hc2
    | held_pop cs hpc hcs => exact absurd hc hc2
    | held_busy hpc hcs hl => exact absurd hc hc2
    | held_claim hpc hcs hl => exact absurd hc hc2
    | load_fail hpc => exact absurd hc hc2
    | load_ok cs hpc => exact absurd hc hc2
    | pub_acquire cs hpc howner => exact absurd hc hc2
    | publish cs hpc => rw [hpc]; rfl
    | fin_acquire b2 hpc howner => exact absurd hc hc2
    | fin_clear b2 hpc => exact absurd hc hc2

/-- Witness for the C1 theorem: after caller 0 misses the fast path,
acquires the lock and claims the load, the resulting state is reachable
and its in-flight loaders are mutually equal (there is exactly caller 0). -/
theorem ensure_single_loader_witness :
    Reachable { setPC { setPC (setPC initSys 0 PC.lockWait) 0 PC.lockHeld with
        owner := some 0 } 0 PC.loader with owner := none, loading := true } ∧
    (∀ i j,
      (({ setPC { setPC (setPC initSys 0 PC.lockWait) 0 PC.lockHeld with
          owner := some 0 } 0 PC.loader with owner := none, loading := true }).pc i).inR = true →
      (({ setPC { setPC (setPC initSys 0 PC.lockWait) 0 PC.lockHeld with
          owner := some 0 } 0 PC.loader with owner := none, loading := true }).pc j).inR = true →
      i = j) := by
  have h1 : StepBy 0 initSys (setPC initSys 0 PC.lockWait) :=
    StepBy.fast_miss _ rfl rfl
  have h2 : StepBy 0 (setPC initSys 0 PC.lockWait)
      { setPC (setPC initSys 0 PC.lockWait) 0 PC.lockHeld with owner := some 0 } :=
    StepBy.acquire _ (by rw [setPC_pc, if_pos rfl]) rfl
  have h3 : StepBy 0 { setPC (setPC initSys 0 PC.lockWait) 0 PC.lockHeld with owner := some 0 }
      { setPC { setPC (setPC initSys 0 PC.lockWait) 0 PC.lockHeld with
          owner := some 0 } 0 PC.loader with owner := none, loading := true } :=
    StepBy.held_claim _ (by rw [updOwner_pc, if_pos rfl]) rfl rfl
  have hreach : Reachable { setPC { setPC (setPC initSys 0 PC.lockWait) 0 PC.lockHeld with
      owner := some 0 } 0 PC.loader with owner := none, loading := true } :=
    Relation.ReflTransGen.head ⟨0, h1⟩
      (Relation.ReflTransGen.head ⟨0, h2⟩
        (Relation.ReflTransGen.head ⟨0, h3⟩ Relation.ReflTransGen.refl))
  exact ⟨hreach, (ensure_single_loader _ hreach).1⟩
end ArkhamDB
